import Mathlib

/-!
Shallow embedding of the package-repository generator
(`src/generate_repo.py`, with the legacy variant `src/repo_manager.py`),
together with proofs about the index builder, the pool maintainer and the
remote-entry registry.

Conventions of the embedding:
* a Python `dict` of strings is an association list with unique keys kept in
  insertion order (`Record`); assignment to an existing key keeps its position;
* an archive discovered in the pool is an `Archive`: its path components
  relative to `pool/main`, its stat size and mtime, the control text returned
  by the `ar`/`tar` extractor (`none` when extraction fails), and the two
  streamed digests `hash_file` computes for it;
* file hashes are carried as data on the archive: `hash_file` is deterministic
  in the file bytes, so two runs over an unchanged pool see the same digests;
* the gzip copy of the index is modelled by the bytes it decompresses to.
-/

set_option linter.unusedVariables false

namespace PkgRepo

/-- Split a character list at every occurrence of `c`
(the semantics of Python `s.split(c)` for a one-character separator). -/
def splitChar (c : Char) : List Char → List (List Char)
  | [] => [[]]
  | x :: xs =>
    match splitChar c xs with
    | [] => [[]]
    | y :: ys => if x = c then [] :: y :: ys else (x :: y) :: ys

/-- Python `s.split(c)` for a one-character separator. -/
def strSplit (s : String) (c : Char) : List String :=
  (splitChar c s.data).map String.mk

/-- Python `str.splitlines` for the newline-separated texts used here. -/
def splitLines (t : String) : List String := strSplit t '\n'

/-- Break a character list at the first `": "`. -/
def breakColon : List Char → Option (List Char × List Char)
  | [] => none
  | ':' :: ' ' :: rest => some ([], rest)
  | x :: xs =>
    match breakColon xs with
    | none => none
    | some (pre, post) => some (x :: pre, post)

/-- Python `line.partition(": ")` in the found case: split at the first
occurrence of the separator; `none` when `": " not in line`. -/
def partSep (line : String) : Option (String × String) :=
  (breakColon line.data).map (fun p => (String.mk p.1, String.mk p.2))

/-- Python `str.strip()`. -/
def trimChars (cs : List Char) : List Char :=
  ((cs.dropWhile Char.isWhitespace).reverse.dropWhile Char.isWhitespace).reverse

def strTrim (s : String) : String := String.mk (trimChars s.data)

/-- `line.startswith(' ') or line.startswith('\t')`. -/
def blankStart (line : String) : Bool :=
  match line.data with
  | [] => false
  | c :: _ => c = ' ' || c = '\t'

/-- An ordered string-to-string mapping standing for a Python `dict`. -/
abbrev Record := List (String × String)

/-- Python `k in info`. -/
def hasKey (info : Record) (k : String) : Bool := info.any (fun kv => kv.1 = k)

/-- First value stored under `k`, if any. -/
def findVal (info : Record) (k : String) : Option String :=
  (info.find? (fun kv => kv.1 = k)).map (fun kv => kv.2)

/-- Python `info.get(k, d)`. -/
def getD (info : Record) (k d : String) : String := (findVal info k).getD d

/-- Python `info[k] = v`: update in place, else append. -/
def setKey (info : Record) (k v : String) : Record :=
  if hasKey info k then info.map (fun kv => if kv.1 = k then (kv.1, v) else kv)
  else info ++ [(k, v)]

/-- Python `info[k] += extra` (used for continuation lines). -/
def appendVal (info : Record) (k extra : String) : Record :=
  info.map (fun kv => if kv.1 = k then (kv.1, kv.2 ++ extra) else kv)

/-- The line loop of `generate_repo.parse_control` (lines 93-105):
a line starting with a space or tab is appended to the current field with an
embedded line break; a line containing `": "` starts a new field; other lines
are ignored. -/
def parseControlGo : List String → Record → Option String → Record
  | [], info, _ => info
  | line :: rest, info, cur =>
    if blankStart line then
      match cur with
      | some k => parseControlGo rest (appendVal info k ("\n" ++ line)) cur
      | none => parseControlGo rest info cur
    else
      match partSep line with
      | some (k, v) =>
        parseControlGo rest (setKey info (strTrim k) (strTrim v)) (some (strTrim k))
      | none => parseControlGo rest info cur

/-- `generate_repo.parse_control`. -/
def parseControl (t : String) : Record := parseControlGo (splitLines t) [] none

/-- Python `pathlib` stem: drop the last dot-suffix of a file name
(a name whose only dot is the leading one keeps itself). -/
def stem (s : String) : String :=
  let ps := strSplit s '.'
  if ps.length ≤ 1 then s
  else
    let j := String.intercalate "." ps.dropLast
    if j = "" then s else j

/-- Python `s.split(sep)[0]` for a one-character separator. -/
def headSplit (s : String) (sep : Char) : String := (strSplit s sep).headD s

/-- `pkg_name[0].lower() if pkg_name else fallback`. -/
def lowerHead (s fallback : String) : String :=
  match s.data with
  | [] => fallback
  | c :: _ => String.mk [c.toLower]

/-- First physical line of a value: Python `s.split('\n')[0]`. -/
def firstLine (s : String) : String := (strSplit s '\n').headD ""

/-! Configuration constants of `generate_repo.py`. -/

def SUPPORTED_ARCHES : List String :=
  ["all", "arm", "i686", "aarch64", "x86_64", "arm64", "amd64"]

def HASHES : List String := ["md5", "sha256"]

def LARGE_FILE_THRESHOLD : Nat := 90 * 1024 * 1024

/-- `generate_repo.hash_label`. -/
def hashLabel (algo : String) : String := if algo = "md5" then "MD5Sum" else String.mk (algo.data.map Char.toUpper)

def PRIORITY_KEYS : List String :=
  ["Package", "Version", "Architecture", "Maintainer",
   "Installed-Size", "Depends", "Pre-Depends", "Recommends",
   "Suggests", "Conflicts", "Breaks", "Replaces", "Provides",
   "Homepage", "Description"]

def COMPUTED : List String :=
  ["Filename", "Size", "MD5Sum", "SHA256", "MD5sum", "SHA1", "SHA512"]

/-! The pool and its scan. -/

/-- A `.deb` discovered under `pool/main`. -/
structure Archive where
  parts : List String
  size : Nat
  mtime : Nat
  ctrl : Option String
  md5 : String
  sha256 : String
deriving DecidableEq

/-- `deb.name`. -/
def archiveName (a : Archive) : String := a.parts.getLastD ""

/-- `deb.parent`, relative to the pool root. -/
def dirOf (a : Archive) : List String := a.parts.dropLast

/-- The pool-relative path string the scan sorts by. -/
def pathKey (a : Archive) : String := String.intercalate "/" a.parts

/-- `hash_file(deb, algo)` for the two configured algorithms. -/
def fileHash (a : Archive) (algo : String) : String :=
  if algo = "md5" then a.md5 else if algo = "sha256" then a.sha256 else ""

/-- Strict lexicographic comparison of character lists by code point: the
order Python uses on strings. -/
def lexLtB : List Char → List Char → Bool
  | [], [] => false
  | [], _ :: _ => true
  | _ :: _, [] => false
  | a :: as, b :: bs => if a = b then lexLtB as bs else decide (a.toNat < b.toNat)

/-- Sort order extracted through a character-list key. -/
def lexKeyLe {α : Type} (key : α → List Char) (a b : α) : Prop :=
  lexLtB (key a) (key b) = true ∨ key a = key b

/-- Strict version of `lexKeyLe`. -/
def lexKeyLt {α : Type} (key : α → List Char) (a b : α) : Prop :=
  lexLtB (key a) (key b) = true

instance {α : Type} (key : α → List Char) : DecidableRel (lexKeyLe key) := fun a b => by
  unfold lexKeyLe; infer_instance

instance {α : Type} (key : α → List Char) : DecidableRel (lexKeyLt key) := fun a b => by
  unfold lexKeyLt; infer_instance

instance {α : Type} (key : α → List Char) : IsTotal α (lexKeyLe key) := by
  constructor
  have tri : ∀ as bs : List Char, lexLtB as bs = true ∨ lexLtB bs as = true ∨ as = bs := by
    intro as
    induction as with
    | nil =>
      intro bs
      cases bs with
      | nil => right; right; rfl
      | cons y ys => left; rfl
    | cons x xs ih =>
      intro bs
      cases bs with
      | nil => right; left; rfl
      | cons y ys =>
        by_cases hxy : x = y
        · subst hxy
          rcases ih ys with h | h | h
          · left; simpa [lexLtB] using h
          · right; left; simpa [lexLtB] using h
          · right; right; rw [h]
        · rcases Nat.lt_trichotomy x.toNat y.toNat with h | h | h
          · left; simp [lexLtB, hxy, h]
          · exact absurd (by rw [← Char.ofNat_toNat x, h, Char.ofNat_toNat]) hxy
          · right; left; simp [lexLtB, Ne.symm hxy, h]
  intro a b
  rcases tri (key a) (key b) with h | h | h
  · exact Or.inl (Or.inl h)
  · exact Or.inr (Or.inl h)
  · exact Or.inl (Or.inr h)

instance {α : Type} (key : α → List Char) : IsTrans α (lexKeyLt key) := by
  constructor
  have tr : ∀ as bs cs : List Char,
      lexLtB as bs = true → lexLtB bs cs = true → lexLtB as cs = true := by
    intro as
    induction as with
    | nil =>
      intro bs cs h1 h2
      cases cs with
      | cons c cs2 => rfl
      | nil =>
        cases bs with
        | nil => exact absurd h1 (by simp [lexLtB])
        | cons b bs2 => exact absurd h2 (by simp [lexLtB])
    | cons x xs ih =>
      intro bs cs h1 h2
      cases bs with
      | nil => exact absurd h1 (by simp [lexLtB])
      | cons y ys =>
        cases cs with
        | nil => exact absurd h2 (by simp [lexLtB])
        | cons z zs =>
          by_cases hxy : x = y
          · subst hxy
            by_cases hyz : x = z
            · subst hyz
              simp only [lexLtB, if_pos rfl] at h1 h2 ⊢
              exact ih ys zs h1 h2
            · simp only [lexLtB, if_pos rfl] at h1
              simp only [lexLtB, if_neg hyz] at h2 ⊢
              exact h2
          · by_cases hyz : y = z
            · subst hyz
              simp only [lexLtB, if_neg hxy] at h1 ⊢
              exact h1
            · by_cases hxz : x = z
              · subst hxz
                simp only [lexLtB, if_neg hxy, decide_eq_true_eq] at h1
                simp only [lexLtB, if_neg hyz, decide_eq_true_eq] at h2
                exact absurd (Nat.lt_trans h1 h2) (Nat.lt_irrefl _)
              · simp only [lexLtB, if_neg hxy, decide_eq_true_eq] at h1
                simp only [lexLtB, if_neg hyz, decide_eq_true_eq] at h2
                simp only [lexLtB, if_neg hxz, decide_eq_true_eq]
                exact Nat.lt_trans h1 h2
  intro a b c h1 h2
  exact tr (key a) (key b) (key c) h1 h2

instance {α : Type} (key : α → List Char) : IsTrans α (lexKeyLe key) := by
  constructor
  intro a b c h1 h2
  rcases h1 with h1 | h1
  · rcases h2 with h2 | h2
    · exact Or.inl (@IsTrans.trans α (lexKeyLt key) _ a b c h1 h2)
    · exact Or.inl (h2 ▸ h1)
  · rcases h2 with h2 | h2
    · exact Or.inl (by rw [h1]; exact h2)
    · exact Or.inr (by rw [h1, h2])

/-- Order of `sorted(glob(...))`: by the relative path string. -/
abbrev pathLe : Archive → Archive → Prop := lexKeyLe (fun a => (pathKey a).data)

/-- Strict path order (distinct paths). -/
abbrev pathLt : Archive → Archive → Prop := lexKeyLt (fun a => (pathKey a).data)

/-- Key order of `all_debs.sort(key=lambda f: f.stat().st_mtime)`. -/
def mtimeLe (a b : Archive) : Prop := a.mtime ≤ b.mtime

instance : DecidableRel mtimeLe := fun a b => by
  unfold mtimeLe; infer_instance

instance : IsTotal Archive mtimeLe := ⟨fun a b => Nat.le_total a.mtime b.mtime⟩

instance : IsTrans Archive mtimeLe := ⟨fun _ _ _ h1 h2 => Nat.le_trans h1 h2⟩

/-- The deterministic scan order: `sorted(glob(pool_dir/**/*.deb))`. -/
def sortP (pool : List Archive) : List Archive := List.insertionSort pathLe pool

/-- Python's stable `list.sort(key=mtime)` on a package folder's debs. -/
def sortM (g : List Archive) : List Archive := List.insertionSort mtimeLe g

/-- The debs sharing `a`'s package folder, in scan order. -/
def groupIn (s : List Archive) (a : Archive) : List Archive :=
  s.filter (fun b => decide (dirOf b = dirOf a))

/-- Survival under the old-version pruning pass (`build_packages` lines
246-257): folders with at most one deb are untouched; otherwise only the last
element of the stable mtime sort (newest; on ties, the lexicographically last)
is kept. -/
def keepArchive (s : List Archive) (a : Archive) : Bool :=
  let g := groupIn s a
  decide (g.length ≤ 1) || decide ((sortM g).getLast? = some a)

/-- The pool as re-scanned after the pruning pass (lines 246-260). -/
def pruneAll (pool : List Archive) : List Archive :=
  let s := sortP pool
  s.filter (fun a => keepArchive s a)

/-- The debs of one package folder `d`, in scan order, before pruning. -/
def dirGroup (pool : List Archive) (d : List String) : List Archive :=
  (sortP pool).filter (fun b => decide (dirOf b = d))

/-- The debs of one package folder `d` that survive the pruning pass. -/
def dirSurvivors (pool : List Archive) (d : List String) : List Archive :=
  (pruneAll pool).filter (fun b => decide (dirOf b = d))

/-! Index entry construction. -/

/-- One record of `packages.json`. -/
structure Item where
  name : String
  path : String
  size : Nat
  package : String
  version : String
  desc : String
  release : Bool
deriving DecidableEq

/-- What one archive (or one release.json record) contributes to the run:
its Packages block, its bucket/package-folder key and summary item, and the
architecture added to `encountered_arches`. -/
structure EntryRes where
  block : Record
  letter : String
  pkgdir : String
  item : Item
  arch : String
deriving DecidableEq

/-- The priority-key pass of the block builder: emit each `PRIORITY_KEYS`
field present in the metadata, in the fixed order. -/
def prioOf (ks : List String) (info : Record) : Record :=
  ks.filterMap (fun k => (info.find? (fun kv => kv.1 = k)).map (fun kv => (k, kv.2)))

def prioFields (info : Record) : Record := prioOf PRIORITY_KEYS info

/-- The keys the priority pass marked as `added`. -/
def addedKeys (info : Record) : List String := PRIORITY_KEYS.filter (fun k => hasKey info k)

/-- The leftover pass: remaining metadata fields not already added and not in
`COMPUTED`. -/
def restFields (info : Record) : Record :=
  info.filter (fun kv => !((addedKeys info).contains kv.1) && !(COMPUTED.contains kv.1))

/-- The computed tail written after the metadata fields: Filename, Size, then
one line per configured hash algorithm. -/
def computedTail (filenamePath : String) (size : Nat) (md5 sha256 : String) : Record :=
  [("Filename", filenamePath), ("Size", toString size)]
    ++ HASHES.map (fun algo =>
        (hashLabel algo, if algo = "md5" then md5 else if algo = "sha256" then sha256 else ""))

/-- The Packages block for a pool archive (`build_packages` lines 305-318). -/
def buildBlockFields (info : Record) (filenamePath : String) (size : Nat)
    (md5 sha256 : String) : Record :=
  prioFields info ++ restFields info ++ computedTail filenamePath size md5 sha256

/-- Location resolution (`build_packages` lines 293-303): a Release URL is
used only for a large file whose name the (truthy) release-URL mapping
contains; everything else renders the pool-relative path. -/
def resolvedLocation (urls : Record) (a : Archive) : String :=
  if decide (LARGE_FILE_THRESHOLD ≤ a.size) && !urls.isEmpty && hasKey urls (archiveName a)
  then getD urls (archiveName a) ""
  else "pool/main/" ++ String.intercalate "/" a.parts

/-- Whether the archive is marked as hosted on a GitHub release. -/
def releaseFlag (urls : Record) (a : Archive) : Bool :=
  decide (LARGE_FILE_THRESHOLD ≤ a.size) && !urls.isEmpty && hasKey urls (archiveName a)

/-- `info.get('Package', deb.stem.split('_')[0])` for a pool archive with
control text `t`. -/
def poolPkgName (a : Archive) (t : String) : String :=
  getD (parseControl t) "Package" (headSplit (stem (archiveName a)) '_')

/-- The bucket letter / package-folder pair for packages.json
(`build_packages` lines 322-328): three-level layout takes the first two path
components, two-level the first component plus the package name, flat the
lowercased first letter of the package name. -/
def poolLetterDir (a : Archive) (pkgName : String) : String × String :=
  if 3 ≤ a.parts.length then (a.parts.headD "", a.parts.getD 1 "")
  else if a.parts.length = 2 then (a.parts.headD "", pkgName)
  else (lowerHead pkgName ".", pkgName)

/-- Block, summary item and architecture contributed by a readable pool
archive with control text `t`. -/
def poolRes (urls : Record) (a : Archive) (t : String) : EntryRes :=
  { block := buildBlockFields (parseControl t) (resolvedLocation urls a)
      a.size a.md5 a.sha256,
    letter := (poolLetterDir a (poolPkgName a t)).1,
    pkgdir := (poolLetterDir a (poolPkgName a t)).2,
    item := { name := archiveName a, path := resolvedLocation urls a, size := a.size,
              package := poolPkgName a t,
              version := getD (parseControl t) "Version" "",
              desc := firstLine (getD (parseControl t) "Description" ""),
              release := releaseFlag urls a },
    arch := getD (parseControl t) "Architecture" "aarch64" }

/-- The per-archive step of the pool scan loop (`build_packages` lines
274-338): `none` when the control extractor failed or the architecture is
unsupported, otherwise the block, summary item and architecture. -/
def poolArchiveRes (urls : Record) (a : Archive) : Option EntryRes :=
  match a.ctrl with
  | none => none
  | some t =>
    if ¬ SUPPORTED_ARCHES.contains (getD (parseControl t) "Architecture" "aarch64") then none
    else some (poolRes urls a t)

/-! The remote-entry registry (release.json). -/

/-- One release.json record (`load_release_json` / `add_to_release_json`).
Missing JSON fields default to the empty string / zero; `package`, `version`
and `arch` are `Option` because the code reads them with a bare `.get`. -/
structure RelEntry where
  file : String
  url : String
  size : Nat
  md5 : String
  sha256 : String
  package : Option String
  version : Option String
  arch : Option String
  control : String
deriving DecidableEq

/-- Python `re.get(k) or fallback`: `None` and `""` both fall through. -/
def orFalsy (o : Option String) (fb : String) : String :=
  match o with
  | some s => if s = "" then fb else s
  | none => fb

/-- `info = parse_control(ctrl_text) if ctrl_text else {}` for a release.json
entry (`build_packages` line 352). -/
def relInfo (e : RelEntry) : Record :=
  if e.control = "" then [] else parseControl e.control

/-- `re.get('package') or info.get('Package', filename.split('_')[0])`. -/
def relPkgName (e : RelEntry) : String :=
  orFalsy e.package (getD (relInfo e) "Package" (headSplit e.file '_'))

def relPkgVer (e : RelEntry) : String :=
  orFalsy e.version (getD (relInfo e) "Version" "")

def relPkgArch (e : RelEntry) : String :=
  orFalsy e.arch (getD (relInfo e) "Architecture" "all")

/-- Metadata part of a synthesised block: the cached control text rendered
through the same priority/leftover passes when present, else the bare
Package/Version/Architecture fallback fields (lines 368-380). -/
def relHead (e : RelEntry) : Record :=
  if e.control = "" then
    [("Package", relPkgName e), ("Version", relPkgVer e), ("Architecture", relPkgArch e)]
  else prioFields (relInfo e) ++ restFields (relInfo e)

/-- Whole synthesised block for a release.json entry (lines 366-386). -/
def relBlock (e : RelEntry) : Record :=
  relHead e ++ [("Filename", e.url), ("Size", toString e.size),
                ("MD5Sum", e.md5), ("SHA256", e.sha256)]

/-- Block, summary item and architecture contributed by a url-carrying
release.json entry. -/
def relRes (e : RelEntry) : EntryRes :=
  { block := relBlock e, letter := lowerHead (relPkgName e) "z",
    pkgdir := relPkgName e,
    item := { name := e.file, path := e.url, size := e.size,
              package := relPkgName e, version := relPkgVer e,
              desc := firstLine (getD (relInfo e) "Description" ""), release := true },
    arch := relPkgArch e }

/-- The per-entry step of the release.json loop (`build_packages` lines
342-398): entries without a url are skipped with a warning; otherwise a block
is synthesised from the cached control text when present, else from the bare
fallback fields. -/
def relEntryRes (e : RelEntry) : Option EntryRes :=
  if e.url = "" then none else some (relRes e)

/-- The record `add_to_release_json` builds for a deb (lines 178-197). -/
def mkRelEntry (nm url : String) (size : Nat) (md5 sha256 : String)
    (ctrl : Option String) : RelEntry :=
  let info := parseControl (ctrl.getD "")
  { file := nm, url := url, size := size, md5 := md5, sha256 := sha256,
    package := some (getD info "Package" (headSplit (stem nm) '_')),
    version := some (getD info "Version" ""),
    arch := some (getD info "Architecture" "all"),
    control := ctrl.getD "" }

/-- Replace the entry with the same file name, else append (lines 207-215). -/
def registerEntry : List RelEntry → RelEntry → List RelEntry
  | [], e => [e]
  | d :: ds, e => if d.file = e.file then e :: ds else d :: registerEntry ds e

/-! The packages.json folder map. -/

abbrev SubMap := List (String × List Item)
abbrev FolderMap := List (String × SubMap)

/-- `folder_map[letter].setdefault(pkgdir, []).append(item)` inner level. -/
def subAppend : SubMap → String → Item → SubMap
  | [], p, it => [(p, [it])]
  | (q, its) :: rest, p, it =>
    if q = p then (q, its ++ [it]) :: rest
    else (q, its) :: subAppend rest p it

/-- `folder_map.setdefault(letter, {}).setdefault(pkgdir, []).append(item)`. -/
def fmAppend : FolderMap → String → String → Item → FolderMap
  | [], letter, p, it => [(letter, [(p, [it])])]
  | (l, sub) :: rest, letter, p, it =>
    if l = letter then (l, subAppend sub p it) :: rest
    else (l, sub) :: fmAppend rest letter p it

def subCount (sub : SubMap) : Nat := (sub.map (fun q => q.2.length)).sum

/-- Total number of summary items in the folder map. -/
def itemCount (m : FolderMap) : Nat := (m.map (fun l => subCount l.2)).sum

/-- `encountered_arches.add`. -/
def insertArch (l : List String) (a : String) : List String :=
  if l.contains a then l else l ++ [a]

/-! The whole index build. -/

structure BuildOutput where
  entries : List Record
  folderMap : FolderMap
  arches : List String
  warnEmpty : Bool
deriving DecidableEq

/-- `generate_repo.build_packages` (lines 226-414) as a function of the pool
contents, the release.json registry and the release-URL mapping: prune old
versions, walk the surviving debs in scan order, then the registry entries,
accumulating Packages blocks, the folder map and the architecture set.
`warnEmpty` records the empty-pool warning diagnostic. -/
def buildPackages (pool : List Archive) (reg : List RelEntry) (urls : Record) :
    BuildOutput :=
  let debs := pruneAll pool
  let results := debs.filterMap (poolArchiveRes urls) ++ reg.filterMap relEntryRes
  { entries := results.map (fun r => r.block)
    folderMap := results.foldl (fun m r => fmAppend m r.letter r.pkgdir r.item) []
    arches := results.foldl (fun s r => insertArch s r.arch) []
    warnEmpty := pool.isEmpty }

/-- `"Field: value"` lines of one block joined by newlines. -/
def renderBlock (b : Record) : String :=
  String.intercalate "\n" (b.map (fun kv => kv.1 ++ ": " ++ kv.2))

/-- The bytes written to `dists/stable/main/binary-aarch64/Packages`
(lines 400-402): blocks joined by blank lines, trailing newline iff any. -/
def packagesContent (o : BuildOutput) : String :=
  String.intercalate "\n\n" (o.entries.map renderBlock)
    ++ (if o.entries.isEmpty then "" else "\n")

/-- `Packages.gz` is the Packages bytes streamed through gzip (lines
406-407); the artifact is modelled by the bytes it decompresses to. -/
def packagesGzDecompressed (o : BuildOutput) : String := packagesContent o

/-! `import_debs` (lines 447-486). -/

/-- A `.deb` in the import source folder. -/
structure SrcDeb where
  name : String
  size : Nat
  ctrl : Option String
deriving DecidableEq

/-- A file in the pool as the importer sees it:
`pool/main/<letter>/<pkg>/<name>`. -/
structure PoolFile where
  letter : String
  pkg : String
  name : String
  size : Nat
deriving DecidableEq

abbrev PoolState := List PoolFile

/-- Run-aborting outcomes of `import_debs`: the `sys.exit` on an empty source
folder, and the uncaught `IndexError` from `pkgname[0]` when the resolved
package name is empty. -/
inductive ImportErr where
  | noDebs
  | indexError
deriving DecidableEq

/-- The package name the importer resolves for a source deb. -/
def srcPkgName (d : SrcDeb) : String :=
  match d.ctrl with
  | some t => getD (parseControl t) "Package" (headSplit (stem d.name) '_')
  | none => headSplit (stem d.name) '_'

/-- `pkgname[0].lower()` (junk value for the empty name, which the step
rejects before using it). -/
def srcLetter (d : SrcDeb) : String :=
  match (srcPkgName d).data with
  | [] => ""
  | c :: _ => String.mk [c.toLower]

/-- The bucket/package folder the deb is imported into. -/
def srcKey (d : SrcDeb) : String × String := (srcLetter d, srcPkgName d)

/-- The pool file a completed copy leaves behind. -/
def mkPoolFile (d : SrcDeb) : PoolFile :=
  { letter := srcLetter d, pkg := srcPkgName d, name := d.name, size := d.size }

/-- An old version in the target folder: same folder, different file name. -/
def otherPredB (d : SrcDeb) (f : PoolFile) : Bool :=
  f.letter == srcLetter d && f.pkg == srcPkgName d && f.name != d.name

/-- The target path itself. -/
def tgtPredB (d : SrcDeb) (f : PoolFile) : Bool :=
  f.letter == srcLetter d && f.pkg == srcPkgName d && f.name == d.name

/-- The pool after `for old_deb in existing: old_deb.unlink()`: other files
of the same package folder are deleted. -/
def importRemoveOld (p : PoolState) (d : SrcDeb) : PoolState :=
  p.filter (fun f => !(otherPredB d f))

/-- Number of old versions removed for this deb (the `replaced` increment). -/
def importReplaced (p : PoolState) (d : SrcDeb) : Nat :=
  (p.filter (otherPredB d)).length

/-- One iteration of the import loop (lines 455-484): resolve the package
name (`none` = the `pkgname[0]` crash), delete old versions of the package,
then skip when a same-named same-size file already sits at the target, else
copy. Returns the new pool and the copied/replaced/skipped increments. -/
def importStep (p : PoolState) (d : SrcDeb) : Option (PoolState × Nat × Nat × Nat) :=
  if srcPkgName d = "" then none
  else
    match (importRemoveOld p d).find? (tgtPredB d) with
    | some tgt =>
      if tgt.size = d.size then some (importRemoveOld p d, 0, importReplaced p d, 1)
      else some ((importRemoveOld p d).filter (fun f => !(tgtPredB d f)) ++ [mkPoolFile d],
          1, importReplaced p d, 0)
    | none => some (importRemoveOld p d ++ [mkPoolFile d], 1, importReplaced p d, 0)

/-- Source-folder scan order: `sorted(Path(input).glob('*.deb'))`. -/
abbrev nameLe : SrcDeb → SrcDeb → Prop := lexKeyLe (fun d => d.name.data)

def sortN (src : List SrcDeb) : List SrcDeb := List.insertionSort nameLe src

def importGo : List SrcDeb → PoolState → Nat → Nat → Nat →
    Except ImportErr (PoolState × Nat × Nat × Nat)
  | [], p, c, r, s => .ok (p, c, r, s)
  | d :: ds, p, c, r, s =>
    match importStep p d with
    | none => .error .indexError
    | some (p2, dc, dr, dsk) => importGo ds p2 (c + dc) (r + dr) (s + dsk)

/-- `import_debs`: `sys.exit` when the source folder holds no `.deb`,
otherwise run the loop over the sorted source files. -/
def importDebs (src : List SrcDeb) (pool : PoolState) :
    Except ImportErr (PoolState × Nat × Nat × Nat) :=
  let debs := sortN src
  if debs.isEmpty then .error .noDebs else importGo debs pool 0 0 0

instance {ε α : Type} [DecidableEq ε] [DecidableEq α] : DecidableEq (Except ε α) :=
  fun x y =>
    match x, y with
    | .ok a, .ok b => decidable_of_iff (a = b) (by simp)
    | .error e, .error f => decidable_of_iff (e = f) (by simp)
    | .ok _, .error _ => isFalse (by simp)
    | .error _, .ok _ => isFalse (by simp)

/-- The key a pool file is identified by on disk. -/
def fileKey (f : PoolFile) : String × String × String := (f.letter, f.pkg, f.name)

/-- The files of one package folder. -/
def dirFiles (p : PoolState) (k : String × String) : PoolState :=
  p.filter (fun f => f.letter == k.1 && f.pkg == k.2)

/-! The legacy variant `src/repo_manager.py`. -/

def rmPriority : List String :=
  ["Package", "Version", "Architecture", "Maintainer",
   "Installed-Size", "Depends", "Pre-Depends",
   "Conflicts", "Breaks", "Replaces", "Provides",
   "Homepage", "Description"]

def rmSkip : List String :=
  ["Package", "Version", "Architecture", "Maintainer",
   "Installed-Size", "Depends", "Pre-Depends", "Conflicts",
   "Breaks", "Replaces", "Provides", "Homepage", "Description",
   "Filename", "Size", "SHA256", "MD5sum"]

/-- The control block of `repo_manager.build_packages` (lines 114-137):
priority fields, then the computed Filename/Size/SHA256, then any remaining
fields not in its skip set. -/
def rmBlockFields (info : Record) (relPath : String) (size : Nat) (sha : String) : Record :=
  prioOf rmPriority info
    ++ [("Filename", relPath), ("Size", toString size), ("SHA256", sha)]
    ++ info.filter (fun kv => !(rmSkip.contains kv.1))

/-- The stdout parsing loop of `repo_manager.extract_deb_info` (lines 65-68):
per-line `"key: value"` splitting only, with no continuation-line handling. -/
def rmParseStdout (t : String) : Record :=
  (splitLines t).foldl
    (fun info line =>
      match partSep line with
      | some (k, v) => setKey info (strTrim k) (strTrim v)
      | none => info) []

/-- Once a key from `names` appears, every later field also has a key from
`names` — i.e. those fields sit after all other fields. -/
def keysLastIn (names : List String) (b : Record) : Bool :=
  (b.dropWhile (fun kv => !(names.contains kv.1))).all (fun kv => names.contains kv.1)

/-! ### Concrete inputs used by witnesses and counterexamples -/

/-- A readable pool archive whose control text has no Package field. -/
def ce3Pool : List Archive :=
  [⟨["x", "pkg", "pkg_1.0_aarch64.deb"], 10, 0, some "Foo: bar", "m", "s"⟩]

/-- A registered remote entry carrying empty digest strings. -/
def ce3Reg : List RelEntry :=
  [⟨"x_1_all.deb", "u", 5, "", "", some "x", some "1", some "all", ""⟩]

/-- A well-formed pool archive. -/
def w3Pool : List Archive :=
  [⟨["m", "micro", "micro_1.0_aarch64.deb"], 9, 1,
    some "Package: micro\nDescription: editor", "ff01", "aa02"⟩]

/-- A well-formed registered remote entry. -/
def w3Reg : List RelEntry :=
  [⟨"big_1.0_all.deb", "https://example.invalid/big_1.0_all.deb", 5, "bb03", "cc04",
    some "big", some "1.0", some "all", ""⟩]

/-- A small (below-threshold) pool archive whose filename does have a
release-URL mapping entry. -/
def ce4Pool : List Archive :=
  [⟨["m", "micro", "micro_1.0_aarch64.deb"], 100, 0,
    some "Package: micro\nVersion: 1.0\nArchitecture: aarch64", "d41d8", "e3b0c"⟩]

def ce4Urls : Record :=
  [("micro_1.0_aarch64.deb", "https://example.invalid/micro_1.0_aarch64.deb")]

/-- A large archive (above the 90 MiB threshold) with a release URL. -/
def w4Archive : Archive :=
  ⟨["g", "gradle", "gradle_9.3.1_all.deb"], 135056252, 3,
    some "Package: gradle\nVersion: 9.3.1\nArchitecture: all", "65af", "5e9d"⟩

def w4Pool : List Archive := [w4Archive]

def w4Urls : Record :=
  [("gradle_9.3.1_all.deb",
    "https://github.com/devjhr/pkg-repo/releases/download/v1.0/gradle_9.3.1_all.deb")]

/-- The release.json record registered for `big_1.0_arm64.deb` by
`--add-release` with a download URL. -/
def w5Entry : RelEntry :=
  mkRelEntry "big_1.0_arm64.deb"
    "https://github.com/devjhr/pkg-repo/releases/download/v1.0/big_1.0_arm64.deb"
    100000000 "abc" "def" none

def w5Reg : List RelEntry := registerEntry [] w5Entry

/-- Two versions of one package in the same folder. -/
def w1a : Archive :=
  ⟨["m", "micro", "micro_1.0_aarch64.deb"], 10, 5,
    some "Package: micro\nArchitecture: aarch64", "m1", "s1"⟩

def w1b : Archive :=
  ⟨["m", "micro", "micro_2.0_aarch64.deb"], 12, 9,
    some "Package: micro\nArchitecture: aarch64", "m2", "s2"⟩

/-- A one-archive import source folder. -/
def w7Src : List SrcDeb := [⟨"micro_1.0_aarch64.deb", 7, some "Package: micro"⟩]

/-- The pool produced by importing w7Src into an empty pool. -/
def w7Pool1 : PoolState := [⟨"m", "micro", "micro_1.0_aarch64.deb", 7⟩]

/-- Three versions of one package with distinct mtimes. -/
def w6Pool : List Archive :=
  [⟨["m", "micro", "micro_1.0_aarch64.deb"], 10, 5, none, "m1", "s1"⟩,
   ⟨["m", "micro", "micro_2.0_aarch64.deb"], 12, 9, none, "m2", "s2"⟩,
   ⟨["m", "micro", "micro_3.0_aarch64.deb"], 11, 7, none, "m3", "s3"⟩]

/-! ### General lemmas about records and the block builders -/

theorem hasKey_eq_find?_isSome (info : Record) (k : String) :
    hasKey info k = (info.find? (fun kv => decide (kv.1 = k))).isSome := by
  induction info with
  | nil => rfl
  | cons kv rest ih =>
    by_cases h : kv.1 = k
    · simp [hasKey, List.any_cons, List.find?_cons, h]
    · simp only [hasKey, List.any_cons, List.find?_cons, decide_eq_true_eq] at ih ⊢
      simp [h, ih]

theorem map_fst_prioOf (ks : List String) (info : Record) :
    (prioOf ks info).map Prod.fst = ks.filter (fun k => hasKey info k) := by
  induction ks with
  | nil => rfl
  | cons k ks ih =>
    simp only [prioOf, List.filterMap_cons] at ih ⊢
    cases h : info.find? (fun kv => decide (kv.1 = k)) with
    | none =>
      have hk : hasKey info k = false := by
        rw [hasKey_eq_find?_isSome, h]; rfl
      simp [List.filter_cons, hk, ih]
    | some kv =>
      have hk : hasKey info k = true := by
        rw [hasKey_eq_find?_isSome, h]; rfl
      simp [List.filter_cons, hk, ih]

theorem mem_prioOf {ks : List String} {info : Record} {kv : String × String}
    (h : kv ∈ prioOf ks info) : kv.1 ∈ ks := by
  induction ks with
  | nil => simp [prioOf] at h
  | cons k ks ih =>
    simp only [prioOf, List.filterMap_cons] at h ih
    cases hf : info.find? (fun x => decide (x.1 = k)) with
    | none =>
      rw [hf] at h
      exact List.mem_cons_of_mem _ (ih h)
    | some x =>
      rw [hf] at h
      rcases List.mem_cons.mp h with h | h
      · rw [h]; exact List.mem_cons_self _ _
      · exact List.mem_cons_of_mem _ (ih h)

theorem hasKey_append (l r : Record) (k : String) :
    hasKey (l ++ r) k = (hasKey l k || hasKey r k) := by
  simp [hasKey, List.any_append]

theorem findVal_append_left_none {l : Record} {k : String} (r : Record)
    (h : hasKey l k = false) : findVal (l ++ r) k = findVal r k := by
  have hnone : l.find? (fun kv => decide (kv.1 = k)) = none := by
    rw [hasKey_eq_find?_isSome] at h
    cases hf : l.find? (fun kv => decide (kv.1 = k)) with
    | none => rfl
    | some kv => rw [hf] at h; simp at h
  simp [findVal, List.find?_append, hnone]

theorem findVal_cons_self (k v : String) (r : Record) :
    findVal ((k, v) :: r) k = some v := by
  simp [findVal, List.find?_cons]

theorem computedTail_eq (fp : String) (n : Nat) (m s : String) :
    computedTail fp n m s
      = [("Filename", fp), ("Size", toString n), ("MD5Sum", m), ("SHA256", s)] := by
  rfl

theorem mem_restFields {info : Record} {kv : String × String}
    (h : kv ∈ restFields info) :
    kv ∈ info ∧ (addedKeys info).contains kv.1 = false ∧ COMPUTED.contains kv.1 = false := by
  simp only [restFields, List.mem_filter, Bool.and_eq_true, Bool.not_eq_true'] at h
  exact ⟨h.1, h.2.1, h.2.2⟩

theorem prio_not_computed_names :
    ∀ k ∈ PRIORITY_KEYS, COMPUTED.contains k = false := by decide

theorem rm_prio_subset_skip : ∀ k ∈ rmPriority, rmSkip.contains k = true := by decide

theorem buildBlock_hasKey_computed (info : Record) (fp : String) (n : Nat) (m s : String) :
    hasKey (buildBlockFields info fp n m s) "Filename" = true
    ∧ hasKey (buildBlockFields info fp n m s) "Size" = true
    ∧ hasKey (buildBlockFields info fp n m s) "MD5Sum" = true
    ∧ hasKey (buildBlockFields info fp n m s) "SHA256" = true := by
  unfold buildBlockFields
  rw [computedTail_eq]
  refine ⟨?_, ?_, ?_, ?_⟩ <;>
    · rw [hasKey_append]
      simp [hasKey]

theorem prioFields_hasKey_of (info : Record) (k : String)
    (hk : k ∈ PRIORITY_KEYS) (h : hasKey info k = true) :
    hasKey (prioFields info) k = true := by
  have : k ∈ (prioFields info).map Prod.fst := by
    rw [prioFields, map_fst_prioOf]
    exact List.mem_filter.mpr ⟨hk, h⟩
  rcases List.mem_map.mp this with ⟨kv, hkv, hfst⟩
  rw [hasKey, List.any_eq_true]
  exact ⟨kv, hkv, by simp [hfst]⟩

theorem hasKey_of_left {l : Record} (r : Record) {k : String}
    (h : hasKey l k = true) : hasKey (l ++ r) k = true := by
  rw [hasKey_append, h, Bool.true_or]

theorem priority_nodup : PRIORITY_KEYS.Nodup := by decide

theorem prio_not_four :
    ∀ k ∈ PRIORITY_KEYS, ¬ k ∈ (["Filename", "Size", "MD5Sum", "SHA256"] : List String) := by
  decide

theorem four_in_COMPUTED :
    ∀ k ∈ (["Filename", "Size", "MD5Sum", "SHA256"] : List String),
      COMPUTED.contains k = true := by
  decide

theorem prioOf_keys_nodup (ks : List String) (info : Record) (h : ks.Nodup) :
    ((prioOf ks info).map Prod.fst).Nodup := by
  rw [map_fst_prioOf]
  exact h.filter _

theorem restFields_keys_nodup (info : Record) (h : (info.map Prod.fst).Nodup) :
    ((restFields info).map Prod.fst).Nodup := by
  exact ((List.filter_sublist info).map Prod.fst).nodup h

theorem prio_rest_keys_disjoint (info : Record) :
    List.Disjoint ((prioFields info).map Prod.fst) ((restFields info).map Prod.fst) := by
  intro a ha hb
  rcases List.mem_map.mp hb with ⟨kv, hkv, hfst⟩
  have hrest := (mem_restFields hkv).2.1
  rw [prioFields, map_fst_prioOf] at ha
  have hmem : kv.1 ∈ addedKeys info := by rw [hfst]; exact ha
  have : (addedKeys info).contains kv.1 = true := List.elem_eq_true_of_mem hmem
  rw [this] at hrest
  exact Bool.true_eq_false.mp hrest

theorem buildBlock_keys_nodup (info : Record) (fp : String) (n : Nat) (m s : String)
    (hnd : (info.map Prod.fst).Nodup) :
    ((buildBlockFields info fp n m s).map Prod.fst).Nodup := by
  unfold buildBlockFields
  rw [computedTail_eq, List.map_append, List.map_append, List.nodup_append,
    List.nodup_append]
  refine ⟨⟨prioOf_keys_nodup _ _ priority_nodup, restFields_keys_nodup _ hnd,
    prio_rest_keys_disjoint info⟩, ?_, ?_⟩
  · rw [show (List.map Prod.fst
        [("Filename", fp), ("Size", toString n), ("MD5Sum", m), ("SHA256", s)])
        = ["Filename", "Size", "MD5Sum", "SHA256"] from rfl]
    decide
  intro a ha hb
  simp only [List.map_cons, List.map_nil, List.mem_cons, List.not_mem_nil] at hb
  rcases List.mem_append.mp ha with ha | ha
  · rcases List.mem_map.mp ha with ⟨kv, hkv, hfst⟩
    have hk := mem_prioOf hkv
    rw [hfst] at hk
    rcases hb with hb | hb | hb | hb | hb
    all_goals first
      | (exact prio_not_four a hk (by rw [hb]; decide))
      | exact hb
  · rcases List.mem_map.mp ha with ⟨kv, hkv, hfst⟩
    have hcomp := (mem_restFields hkv).2.2
    have : COMPUTED.contains a = true := by
      rcases hb with hb | hb | hb | hb | hb
      · rw [hb]; decide
      · rw [hb]; decide
      · rw [hb]; decide
      · rw [hb]; decide
      · exact absurd hb (by simp)
    rw [← hfst, hcomp] at this
    exact Bool.false_eq_true.mp this

theorem rm_prio_not_three :
    ∀ k ∈ rmPriority, ¬ k ∈ (["Filename", "Size", "SHA256"] : List String) := by decide

theorem rm_three_subset_skip :
    ∀ k ∈ (["Filename", "Size", "SHA256"] : List String), rmSkip.contains k = true := by decide

theorem rm_mem_rest {info : Record} {kv : String × String}
    (h : kv ∈ info.filter (fun kv => !(rmSkip.contains kv.1))) :
    kv ∈ info ∧ rmSkip.contains kv.1 = false := by
  simp only [List.mem_filter, Bool.not_eq_true'] at h
  exact h

theorem rmBlock_keys_nodup (info : Record) (fp : String) (n : Nat) (sha : String)
    (hnd : (info.map Prod.fst).Nodup) :
    ((rmBlockFields info fp n sha).map Prod.fst).Nodup := by
  unfold rmBlockFields
  rw [List.map_append, List.map_append, List.nodup_append, List.nodup_append]
  refine ⟨⟨prioOf_keys_nodup _ _ (by decide), ?_, ?_⟩, ?_, ?_⟩
  · rw [show (List.map Prod.fst [("Filename", fp), ("Size", toString n), ("SHA256", sha)])
        = ["Filename", "Size", "SHA256"] from rfl]
    decide
  · intro a ha hb
    rcases List.mem_map.mp ha with ⟨kv, hkv, hfst⟩
    have hk := mem_prioOf hkv
    rw [hfst] at hk
    exact rm_prio_not_three a hk (by simpa using hb)
  · exact ((List.filter_sublist info).map Prod.fst).nodup hnd
  · intro a ha hb
    rcases List.mem_map.mp hb with ⟨kv, hkv, hfst⟩
    have hskip := (rm_mem_rest hkv).2
    have hin : rmSkip.contains a = true := by
      rcases List.mem_append.mp ha with ha | ha
      · rcases List.mem_map.mp ha with ⟨kv2, hkv2, hfst2⟩
        have hk := mem_prioOf hkv2
        rw [hfst2] at hk
        exact rm_prio_subset_skip a hk
      · exact rm_three_subset_skip a (by simpa using ha)
    rw [← hfst, hskip] at hin
    exact Bool.false_eq_true.mp hin

/-- C2 (counterexample): in the legacy builder `repo_manager.build_packages`,
an archive whose metadata contains Package, Version, a conflicting Filename
and a field outside its priority/skip lists (here `Suggests`) renders that
field after the computed Filename/Size/SHA256 lines, so the computed lines
are not placed after all other fields as the claim states. -/
theorem c2_counterexample :
    keysLastIn ["Filename", "Size", "SHA256"]
      (rmBlockFields [("Package", "p"), ("Version", "1"), ("Filename", "raw"), ("Suggests", "q")]
        "pool/main/s/p/p_1_all.deb" 5 "h") = false
    ∧ (rmBlockFields [("Package", "p"), ("Version", "1"), ("Filename", "raw"), ("Suggests", "q")]
        "pool/main/s/p/p_1_all.deb" 5 "h").getLast?
      = some ("Suggests", "q") := by decide

/-- C2 (amended): for metadata containing Package, Version and a conflicting
Filename field, the `generate_repo.py` builder renders priority fields first,
then the remaining metadata fields, and places the computed
Filename/Size/MD5Sum/SHA256 lines after all other fields, with no field name
on two lines; the legacy `repo_manager.py` builder also never duplicates a
field name, but emits its computed lines before the leftover fields. -/
theorem c2_amended_field_ordering (info : Record) (fp : String) (n : Nat) (m s sha : String)
    (hnd : (info.map Prod.fst).Nodup)
    (hp : hasKey info "Package" = true)
    (hv : hasKey info "Version" = true)
    (hf : hasKey info "Filename" = true) :
    (∃ pre1 pre2, buildBlockFields info fp n m s
        = pre1 ++ pre2 ++ [("Filename", fp), ("Size", toString n), ("MD5Sum", m), ("SHA256", s)]
      ∧ (∀ kv ∈ pre1, kv.1 ∈ PRIORITY_KEYS)
      ∧ (∀ kv ∈ pre2, ¬ kv.1 ∈ PRIORITY_KEYS ∧ COMPUTED.contains kv.1 = false)
      ∧ (∀ kv ∈ pre1 ++ pre2, ¬ kv.1 ∈ (["Filename", "Size", "MD5Sum", "SHA256"] : List String)))
    ∧ ((buildBlockFields info fp n m s).map Prod.fst).Nodup
    ∧ ((rmBlockFields info fp n sha).map Prod.fst).Nodup := by
  refine ⟨⟨prioFields info, restFields info, ?_, ?_, ?_, ?_⟩,
    buildBlock_keys_nodup info fp n m s hnd, rmBlock_keys_nodup info fp n sha hnd⟩
  · rw [buildBlockFields, computedTail_eq]
  · intro kv hkv
    exact mem_prioOf hkv
  · intro kv hkv
    obtain ⟨hmem, hadd, hcomp⟩ := mem_restFields hkv
    constructor
    · intro hprio
      have hhas : hasKey info kv.1 = true := by
        rw [hasKey, List.any_eq_true]
        exact ⟨kv, hmem, by simp⟩
      have hmem2 : kv.1 ∈ addedKeys info := List.mem_filter.mpr ⟨hprio, hhas⟩
      have h2 : (addedKeys info).contains kv.1 = true := List.elem_eq_true_of_mem hmem2
      rw [h2] at hadd
      exact Bool.true_eq_false.mp hadd
    · exact hcomp
  · intro kv hkv
    rcases List.mem_append.mp hkv with h | h
    · exact prio_not_four kv.1 (mem_prioOf h)
    · obtain ⟨_, _, hcomp⟩ := mem_restFields h
      intro hfour
      rw [four_in_COMPUTED kv.1 hfour] at hcomp
      exact Bool.true_eq_false.mp hcomp

/-- C2 (witness): the amended field-ordering theorem applied to a concrete
metadata record containing Package, Version, a conflicting Filename and an
extra passthrough field. -/
theorem c2_witness :
    ((([("Package", "micro"), ("Version", "1.0"), ("Filename", "evil"), ("Zed", "z")] :
        Record).map Prod.fst).Nodup
      ∧ hasKey [("Package", "micro"), ("Version", "1.0"), ("Filename", "evil"), ("Zed", "z")]
          "Package" = true
      ∧ hasKey [("Package", "micro"), ("Version", "1.0"), ("Filename", "evil"), ("Zed", "z")]
          "Version" = true
      ∧ hasKey [("Package", "micro"), ("Version", "1.0"), ("Filename", "evil"), ("Zed", "z")]
          "Filename" = true)
    ∧ ((∃ pre1 pre2,
        buildBlockFields [("Package", "micro"), ("Version", "1.0"), ("Filename", "evil"), ("Zed", "z")]
            "pool/main/m/micro/micro_1.0_aarch64.deb" 7 "m5" "s2"
          = pre1 ++ pre2 ++ [("Filename", "pool/main/m/micro/micro_1.0_aarch64.deb"),
              ("Size", toString 7), ("MD5Sum", "m5"), ("SHA256", "s2")]
        ∧ (∀ kv ∈ pre1, kv.1 ∈ PRIORITY_KEYS)
        ∧ (∀ kv ∈ pre2, ¬ kv.1 ∈ PRIORITY_KEYS ∧ COMPUTED.contains kv.1 = false)
        ∧ (∀ kv ∈ pre1 ++ pre2, ¬ kv.1 ∈ (["Filename", "Size", "MD5Sum", "SHA256"] : List String)))
      ∧ ((buildBlockFields [("Package", "micro"), ("Version", "1.0"), ("Filename", "evil"), ("Zed", "z")]
          "pool/main/m/micro/micro_1.0_aarch64.deb" 7 "m5" "s2").map Prod.fst).Nodup
      ∧ ((rmBlockFields [("Package", "micro"), ("Version", "1.0"), ("Filename", "evil"), ("Zed", "z")]
          "pool/main/m/micro/micro_1.0_aarch64.deb" 7 "sh").map Prod.fst).Nodup) :=
  ⟨⟨by decide, by decide, by decide, by decide⟩,
    c2_amended_field_ordering _ _ _ _ _ _ (by decide) (by decide) (by decide) (by decide)⟩

/-- C8 (counterexample): the per-line parser inside
`repo_manager.extract_deb_info` has no continuation handling, so the claimed
input parses to Description = "short", not to the full three-line value. -/
theorem c8_counterexample :
    rmParseStdout "Description: short\n more text\n even more" = [("Description", "short")]
    ∧ rmParseStdout "Description: short\n more text\n even more"
        ≠ [("Description", "short\n more text\n even more")] := by decide

/-- C8 (amended): `generate_repo.parse_control` parses the input
"Description: short\n more text\n even more" to a single Description field
carrying the full continuation value, while the legacy stdout parser in
`repo_manager.extract_deb_info` keeps only "short". -/
theorem c8_amended_continuation :
    parseControl "Description: short\n more text\n even more"
      = [("Description", "short\n more text\n even more")]
    ∧ rmParseStdout "Description: short\n more text\n even more"
      = [("Description", "short")] := by decide

/-- C9 (code bug): a source archive named "_1.0_aarch64.deb" whose control
cannot be extracted resolves to an empty package name, and `import_debs`
then aborts the whole run via the uncaught IndexError from `pkgname[0]`
instead of skipping the archive with a diagnostic. -/
theorem c9_import_crash_on_malformed_name :
    srcPkgName { name := "_1.0_aarch64.deb", size := 100, ctrl := none } = ""
    ∧ importDebs [{ name := "_1.0_aarch64.deb", size := 100, ctrl := none }] []
        = Except.error ImportErr.indexError := by decide

/-! ### Shape of the build output -/

theorem buildPackages_entries (pool : List Archive) (reg : List RelEntry) (urls : Record) :
    (buildPackages pool reg urls).entries
      = ((pruneAll pool).filterMap (poolArchiveRes urls)).map (fun r => r.block)
        ++ (reg.filterMap relEntryRes).map (fun r => r.block) := by
  simp [buildPackages, List.map_append]

theorem mem_of_mem_pruneAll {pool : List Archive} {a : Archive}
    (h : a ∈ pruneAll pool) : a ∈ pool := by
  unfold pruneAll at h
  exact (List.perm_insertionSort pathLe pool).subset (List.mem_of_mem_filter h)

theorem poolArchiveRes_some {urls : Record} {a : Archive} {r : EntryRes}
    (h : poolArchiveRes urls a = some r) :
    ∃ t, a.ctrl = some t
      ∧ SUPPORTED_ARCHES.contains (getD (parseControl t) "Architecture" "aarch64") = true
      ∧ r = poolRes urls a t := by
  unfold poolArchiveRes at h
  revert h
  cases hc : a.ctrl with
  | none => intro h; exact absurd h (by simp)
  | some t =>
    intro h
    dsimp only at h
    split at h
    · exact absurd h (by simp)
    · next harch => exact ⟨t, rfl, not_not.mp harch, (Option.some.inj h).symm⟩

theorem poolArchiveRes_of_supported {urls : Record} {a : Archive} {t : String}
    (hc : a.ctrl = some t)
    (harch : SUPPORTED_ARCHES.contains (getD (parseControl t) "Architecture" "aarch64") = true) :
    poolArchiveRes urls a = some (poolRes urls a t) := by
  unfold poolArchiveRes
  rw [hc]
  show (if ¬ SUPPORTED_ARCHES.contains (getD (parseControl t) "Architecture" "aarch64") = true
    then none else some (poolRes urls a t)) = some (poolRes urls a t)
  rw [if_neg (not_not_intro harch)]

theorem relEntryRes_some {e : RelEntry} {r : EntryRes}
    (h : relEntryRes e = some r) : e.url ≠ "" ∧ r = relRes e := by
  unfold relEntryRes at h
  split at h
  · exact absurd h (by simp)
  · next hurl => exact ⟨hurl, (Option.some.inj h).symm⟩

theorem relEntryRes_of_url {e : RelEntry} (h : e.url ≠ "") :
    relEntryRes e = some (relRes e) := by
  unfold relEntryRes
  rw [if_neg h]

theorem poolRes_block (urls : Record) (a : Archive) (t : String) :
    (poolRes urls a t).block
      = buildBlockFields (parseControl t) (resolvedLocation urls a) a.size a.md5 a.sha256 :=
  rfl

theorem relRes_block (e : RelEntry) : (relRes e).block = relBlock e := rfl

theorem prefix_no_computed (info : Record) (k : String)
    (hk : k ∈ (["Filename", "Size", "MD5Sum", "SHA256"] : List String)) :
    hasKey (prioFields info ++ restFields info) k = false := by
  rw [hasKey_append]
  have h1 : hasKey (prioFields info) k = false := by
    cases h : hasKey (prioFields info) k
    · rfl
    · exfalso
      rw [hasKey, List.any_eq_true] at h
      rcases h with ⟨kv, hkv, hbeq⟩
      rw [decide_eq_true_eq] at hbeq
      have hmem := mem_prioOf hkv
      rw [hbeq] at hmem
      exact prio_not_four k hmem hk
  have h2 : hasKey (restFields info) k = false := by
    cases h : hasKey (restFields info) k
    · rfl
    · exfalso
      rw [hasKey, List.any_eq_true] at h
      rcases h with ⟨kv, hkv, hbeq⟩
      rw [decide_eq_true_eq] at hbeq
      have hcomp := (mem_restFields hkv).2.2
      rw [hbeq, four_in_COMPUTED k hk] at hcomp
      exact Bool.true_eq_false.mp hcomp
  rw [h1, h2]
  rfl

theorem buildBlock_findVal (info : Record) (fp : String) (n : Nat) (m s : String) :
    findVal (buildBlockFields info fp n m s) "Filename" = some fp
    ∧ findVal (buildBlockFields info fp n m s) "Size" = some (toString n)
    ∧ findVal (buildBlockFields info fp n m s) "MD5Sum" = some m
    ∧ findVal (buildBlockFields info fp n m s) "SHA256" = some s := by
  unfold buildBlockFields
  rw [computedTail_eq]
  refine ⟨?_, ?_, ?_, ?_⟩ <;>
    rw [findVal_append_left_none _ (prefix_no_computed info _ (by decide))] <;> rfl

theorem buildBlock_hasKey_package (info : Record) (fp : String) (n : Nat) (m s : String)
    (h : hasKey info "Package" = true) :
    hasKey (buildBlockFields info fp n m s) "Package" = true := by
  unfold buildBlockFields
  exact hasKey_of_left _ (hasKey_of_left _ (prioFields_hasKey_of info "Package" (by decide) h))

theorem relHead_no_computed (e : RelEntry) (k : String)
    (hk : k ∈ (["Filename", "Size", "MD5Sum", "SHA256"] : List String)) :
    hasKey (relHead e) k = false := by
  unfold relHead
  split
  · cases hk with
    | head => rfl
    | tail _ hk =>
      cases hk with
      | head => rfl
      | tail _ hk =>
        cases hk with
        | head => rfl
        | tail _ hk =>
          cases hk with
          | head => rfl
          | tail _ hk => cases hk
  · exact prefix_no_computed _ _ hk

theorem relBlock_findVal (e : RelEntry) :
    findVal (relBlock e) "Filename" = some e.url
    ∧ findVal (relBlock e) "Size" = some (toString e.size)
    ∧ findVal (relBlock e) "MD5Sum" = some e.md5
    ∧ findVal (relBlock e) "SHA256" = some e.sha256 := by
  unfold relBlock
  refine ⟨?_, ?_, ?_, ?_⟩ <;>
    rw [findVal_append_left_none _ (relHead_no_computed e _ (by decide))] <;> rfl

theorem relBlock_hasKey_package (e : RelEntry)
    (h : e.control ≠ "" → hasKey (parseControl e.control) "Package" = true) :
    hasKey (relBlock e) "Package" = true := by
  unfold relBlock
  apply hasKey_of_left
  unfold relHead
  split
  · simp [hasKey]
  · next hc =>
      apply hasKey_of_left
      apply prioFields_hasKey_of _ _ (by decide)
      have := h hc
      rw [relInfo, if_neg hc]
      exact this

theorem relBlock_hasKey_computed (e : RelEntry) :
    hasKey (relBlock e) "Filename" = true ∧ hasKey (relBlock e) "Size" = true := by
  unfold relBlock
  constructor <;> · rw [hasKey_append]; simp [hasKey]

/-- C3 (counterexample): two emitted entries violating the claim. A pool
archive readable but whose control text has no Package field (here only
"Foo: bar") produces an index entry without any Package line; and a
registered remote entry whose stored md5/sha256 digests are empty strings
produces an entry whose only checksum lines carry empty digests. -/
theorem c3_counterexample :
    (buildPackages ce3Pool [] []).entries.map (fun b => hasKey b "Package") = [false]
    ∧ (buildPackages [] ce3Reg []).entries.map
        (fun b => (findVal b "MD5Sum", findVal b "SHA256")) = [(some "", some "")] := by
  decide

/-- C3 (amended): every entry emitted into the Packages index carries a
Filename line, a Size line and both checksum lines; the MD5Sum digest is
non-empty provided the pool digests are hashlib hexdigests (non-empty) and
every registered remote entry stores a non-empty md5; a Package line is
present provided every readable control text and every cached registry
control text contains a Package field (bare remote fallbacks always emit
one). -/
theorem c3_amended_entry_presence (pool : List Archive) (reg : List RelEntry) (urls : Record)
    (hpoolPkg : ∀ a ∈ pool, ∀ t, a.ctrl = some t → hasKey (parseControl t) "Package" = true)
    (hregPkg : ∀ e ∈ reg, e.control ≠ "" → hasKey (parseControl e.control) "Package" = true)
    (hpoolMd5 : ∀ a ∈ pool, a.md5 ≠ "")
    (hregMd5 : ∀ e ∈ reg, e.md5 ≠ "") :
    ∀ b ∈ (buildPackages pool reg urls).entries,
      hasKey b "Package" = true
      ∧ hasKey b "Filename" = true
      ∧ hasKey b "Size" = true
      ∧ ∃ v, findVal b "MD5Sum" = some v ∧ v ≠ "" := by
  intro b hb
  rw [buildPackages_entries] at hb
  rcases List.mem_append.mp hb with hb | hb
  · rcases List.mem_map.mp hb with ⟨r, hr, hrb⟩
    rcases List.mem_filterMap.mp hr with ⟨a, ha, hres⟩
    have hapool : a ∈ pool := mem_of_mem_pruneAll ha
    obtain ⟨t, hct, _, hblock⟩ := poolArchiveRes_some hres
    rw [← hrb, hblock, poolRes_block]
    obtain ⟨hfn, hsz, _, _⟩ := buildBlock_hasKey_computed (parseControl t)
      (resolvedLocation urls a) a.size a.md5 a.sha256
    refine ⟨?_, hfn, hsz, a.md5, (buildBlock_findVal _ _ _ _ _).2.2.1, hpoolMd5 a hapool⟩
    exact buildBlock_hasKey_package _ _ _ _ _ (hpoolPkg a hapool t hct)
  · rcases List.mem_map.mp hb with ⟨r, hr, hrb⟩
    rcases List.mem_filterMap.mp hr with ⟨e, he, hres⟩
    obtain ⟨_, hreq⟩ := relEntryRes_some hres
    rw [← hrb, hreq, relRes_block]
    obtain ⟨hfn, hsz⟩ := relBlock_hasKey_computed e
    exact ⟨relBlock_hasKey_package e (hregPkg e he), hfn, hsz, e.md5,
      (relBlock_findVal e).2.2.1, hregMd5 e he⟩

/-- C3 (witness): the amended entry-presence theorem applied to a concrete
pool archive and a concrete registered remote entry. -/
theorem c3_witness :
    ((∀ a ∈ w3Pool, ∀ t, a.ctrl = some t → hasKey (parseControl t) "Package" = true)
      ∧ (∀ e ∈ w3Reg, e.control ≠ "" → hasKey (parseControl e.control) "Package" = true))
    ∧ ∀ b ∈ (buildPackages w3Pool w3Reg []).entries,
      hasKey b "Package" = true
      ∧ hasKey b "Filename" = true
      ∧ hasKey b "Size" = true
      ∧ ∃ v, findVal b "MD5Sum" = some v ∧ v ≠ "" :=
  ⟨⟨by decide, by decide⟩,
    c3_amended_entry_presence _ _ _ (by decide) (by decide) (by decide) (by decide)⟩

theorem resolvedLocation_eq (urls : Record) (a : Archive) :
    resolvedLocation urls a
      = if LARGE_FILE_THRESHOLD ≤ a.size ∧ urls ≠ [] ∧ hasKey urls (archiveName a) = true
        then getD urls (archiveName a) ""
        else "pool/main/" ++ String.intercalate "/" a.parts := by
  unfold resolvedLocation
  by_cases h : LARGE_FILE_THRESHOLD ≤ a.size ∧ urls ≠ [] ∧ hasKey urls (archiveName a) = true
  · have hb : (decide (LARGE_FILE_THRESHOLD ≤ a.size) && !urls.isEmpty
        && hasKey urls (archiveName a)) = true := by
      obtain ⟨h1, h2, h3⟩ := h
      rw [Bool.and_eq_true, Bool.and_eq_true]
      refine ⟨⟨decide_eq_true h1, ?_⟩, h3⟩
      rw [Bool.not_eq_true']
      cases urls with
      | nil => exact absurd rfl h2
      | cons u us => rfl
    rw [hb, if_pos rfl, if_pos h]
  · have hb : (decide (LARGE_FILE_THRESHOLD ≤ a.size) && !urls.isEmpty
        && hasKey urls (archiveName a)) = false := by
      cases hcond : (decide (LARGE_FILE_THRESHOLD ≤ a.size) && !urls.isEmpty
          && hasKey urls (archiveName a)) with
      | false => rfl
      | true =>
        exfalso
        rw [Bool.and_eq_true, Bool.and_eq_true] at hcond
        obtain ⟨⟨h1, h2⟩, h3⟩ := hcond
        refine h ⟨of_decide_eq_true h1, ?_, h3⟩
        intro hnil
        rw [hnil] at h2
        exact absurd h2 (by decide)
    rw [hb, if_neg (by decide), if_neg h]

/-- C4 (counterexample): the pool archive `micro_1.0_aarch64.deb` is below
the large-file threshold; its filename is present in the release-URL mapping
(the lookup succeeds), yet the rendered Filename is the pool-relative path,
not the remote URL. -/
theorem c4_counterexample :
    hasKey ce4Urls "micro_1.0_aarch64.deb" = true
    ∧ (buildPackages ce4Pool [] ce4Urls).entries.map (fun b => findVal b "Filename")
        = [some "pool/main/m/micro/micro_1.0_aarch64.deb"]
    ∧ getD ce4Urls "micro_1.0_aarch64.deb" ""
        ≠ "pool/main/m/micro/micro_1.0_aarch64.deb" := by
  decide

/-- C4 (amended): for every archive that is discovered in the pool and
indexed, the rendered Filename is the registered remote URL exactly when the
archive's size meets the 90 MiB large-file threshold and the release-URL
lookup for its filename succeeds; otherwise — including small archives whose
lookup would succeed — it is the pool-relative path prefixed with
`pool/main/`. -/
theorem c4_amended_location_resolution (pool : List Archive) (reg : List RelEntry)
    (urls : Record) (a : Archive) (t : String)
    (ha : a ∈ pruneAll pool) (hc : a.ctrl = some t)
    (harch : SUPPORTED_ARCHES.contains (getD (parseControl t) "Architecture" "aarch64") = true) :
    ∃ b ∈ (buildPackages pool reg urls).entries,
      findVal b "Filename"
        = some (if LARGE_FILE_THRESHOLD ≤ a.size ∧ urls ≠ [] ∧ hasKey urls (archiveName a) = true
            then getD urls (archiveName a) ""
            else "pool/main/" ++ String.intercalate "/" a.parts) := by
  refine ⟨(poolRes urls a t).block, ?_, ?_⟩
  · rw [buildPackages_entries]
    apply List.mem_append_left
    exact List.mem_map.mpr ⟨poolRes urls a t,
      List.mem_filterMap.mpr ⟨a, ha, poolArchiveRes_of_supported hc harch⟩, rfl⟩
  · rw [poolRes_block, (buildBlock_findVal _ _ _ _ _).1]
    rw [resolvedLocation_eq]

/-- C4 (witness): the amended location-resolution theorem applied to a large
archive with a registered release URL. -/
theorem c4_witness :
    (w4Archive ∈ pruneAll w4Pool
      ∧ w4Archive.ctrl = some "Package: gradle\nVersion: 9.3.1\nArchitecture: all"
      ∧ SUPPORTED_ARCHES.contains
          (getD (parseControl "Package: gradle\nVersion: 9.3.1\nArchitecture: all")
            "Architecture" "aarch64") = true)
    ∧ ∃ b ∈ (buildPackages w4Pool [] w4Urls).entries,
        findVal b "Filename"
          = some (if LARGE_FILE_THRESHOLD ≤ w4Archive.size ∧ w4Urls ≠ []
              ∧ hasKey w4Urls (archiveName w4Archive) = true
            then getD w4Urls (archiveName w4Archive) ""
            else "pool/main/" ++ String.intercalate "/" w4Archive.parts) :=
  ⟨⟨by decide, by decide, by decide⟩,
    c4_amended_location_resolution w4Pool [] w4Urls w4Archive
      "Package: gradle\nVersion: 9.3.1\nArchitecture: all"
      (by decide) (by decide) (by decide)⟩

/-! ### Counting summary items -/

theorem subCount_subAppend (sub : SubMap) (p : String) (it : Item) :
    subCount (subAppend sub p it) = subCount sub + 1 := by
  induction sub with
  | nil => simp [subAppend, subCount]
  | cons q rest ih =>
    obtain ⟨qk, qits⟩ := q
    by_cases h : qk = p
    · simp [subAppend, h, subCount]
      omega
    · simp only [subAppend, if_neg h, subCount, List.map_cons, List.sum_cons] at ih ⊢
      omega

theorem itemCount_fmAppend (m : FolderMap) (letter p : String) (it : Item) :
    itemCount (fmAppend m letter p it) = itemCount m + 1 := by
  induction m with
  | nil => simp [fmAppend, itemCount, subCount]
  | cons l rest ih =>
    obtain ⟨lk, lsub⟩ := l
    by_cases h : lk = letter
    · simp [fmAppend, h, itemCount, subCount_subAppend]
      omega
    · simp only [fmAppend, if_neg h, itemCount, List.map_cons, List.sum_cons] at ih ⊢
      omega

theorem itemCount_foldl (rs : List EntryRes) (m : FolderMap) :
    itemCount (rs.foldl (fun m r => fmAppend m r.letter r.pkgdir r.item) m)
      = itemCount m + rs.length := by
  induction rs generalizing m with
  | nil => simp
  | cons r rs ih =>
    rw [List.foldl_cons, ih, itemCount_fmAppend, List.length_cons]
    omega

theorem buildPackages_itemCount (pool : List Archive) (reg : List RelEntry) (urls : Record) :
    itemCount (buildPackages pool reg urls).folderMap
      = ((pruneAll pool).filterMap (poolArchiveRes urls)).length
        + (reg.filterMap relEntryRes).length := by
  unfold buildPackages
  dsimp only
  rw [itemCount_foldl, List.length_append]
  have h0 : itemCount ([] : FolderMap) = 0 := rfl
  rw [h0, Nat.zero_add]

/-- C5: decomposing the registry around a registered entry `r` that carries a
url and whose archive is not represented in the pool: the build with `r`
present emits exactly one more index entry and exactly one more summary item
than the build without it, and some emitted entry's Filename equals the
registered URL. -/
theorem c5_remote_entry_synthesis (pool : List Archive) (pre post : List RelEntry)
    (r : RelEntry) (urls : Record)
    (hurl : r.url ≠ "")
    (hrep : ∀ a ∈ pool, archiveName a ≠ r.file) :
    (buildPackages pool (pre ++ r :: post) urls).entries.length
      = (buildPackages pool (pre ++ post) urls).entries.length + 1
    ∧ (∃ b ∈ (buildPackages pool (pre ++ r :: post) urls).entries,
        findVal b "Filename" = some r.url)
    ∧ itemCount (buildPackages pool (pre ++ r :: post) urls).folderMap
      = itemCount (buildPackages pool (pre ++ post) urls).folderMap + 1 := by
  have hlen : (pre ++ r :: post).filterMap relEntryRes
      = pre.filterMap relEntryRes ++ relRes r :: post.filterMap relEntryRes := by
    rw [List.filterMap_append, List.filterMap_cons, relEntryRes_of_url hurl]
  refine ⟨?_, ?_, ?_⟩
  · rw [buildPackages_entries, buildPackages_entries, hlen, List.filterMap_append]
    simp only [List.length_map, List.length_append, List.length_cons]
    omega
  · refine ⟨(relRes r).block, ?_, ?_⟩
    · rw [buildPackages_entries]
      apply List.mem_append_right
      apply List.mem_map.mpr
      refine ⟨relRes r, ?_, rfl⟩
      rw [hlen]
      exact List.mem_append_right _ (List.mem_cons_self _ _)
    · rw [relRes_block]
      exact (relBlock_findVal r).1
  · rw [buildPackages_itemCount, buildPackages_itemCount, hlen, List.filterMap_append]
    simp only [List.length_append, List.length_cons]
    omega

/-- C5 (witness): registering an entry for `big_1.0_arm64.deb` with a URL via
the add-release operation and then building on an empty pool yields exactly
one index entry, whose Filename is that URL. -/
theorem c5_witness :
    (w5Entry.url ≠ ""
      ∧ w5Reg = [] ++ w5Entry :: []
      ∧ (∀ a ∈ ([] : List Archive), archiveName a ≠ w5Entry.file))
    ∧ ((buildPackages [] ([] ++ w5Entry :: []) []).entries.length
        = (buildPackages [] ([] ++ []) []).entries.length + 1
      ∧ (∃ b ∈ (buildPackages [] ([] ++ w5Entry :: []) []).entries,
          findVal b "Filename" = some w5Entry.url)
      ∧ itemCount (buildPackages [] ([] ++ w5Entry :: []) []).folderMap
        = itemCount (buildPackages [] ([] ++ []) []).folderMap + 1) :=
  ⟨⟨by decide, by decide, by decide⟩,
    c5_remote_entry_synthesis [] [] [] w5Entry [] (by decide) (by decide)⟩

/-! ### The pruning pass: survivors of the stable mtime sort -/

theorem getLast?_orderedInsert_mtime (x : Archive) (l : List Archive)
    (hs : l.Sorted mtimeLe) :
    (List.orderedInsert mtimeLe x l).getLast?
      = some (match l.getLast? with
          | none => x
          | some m => if m.mtime < x.mtime then x else m) := by
  induction l with
  | nil => rfl
  | cons y ys ih =>
    rw [List.orderedInsert]
    by_cases hxy : mtimeLe x y
    · rw [if_pos hxy]
      cases hys : (y :: ys).getLast? with
      | none => simp at hys
      | some m =>
        have hmem : m ∈ y :: ys := List.mem_of_getLast?_eq_some hys
        have hxm : x.mtime ≤ m.mtime := by
          rcases List.mem_cons.mp hmem with rfl | hm
          · exact hxy
          · exact le_trans hxy (List.rel_of_sorted_cons hs m hm)
        rw [List.getLast?_cons_cons, hys]
        dsimp only
        rw [if_neg (by omega)]
    · rw [if_neg hxy]
      have hne : List.orderedInsert mtimeLe x ys ≠ [] := by
        intro hnil
        have := List.orderedInsert_length mtimeLe ys x
        rw [hnil] at this
        simp at this
      have hstep : (y :: List.orderedInsert mtimeLe x ys).getLast?
          = (List.orderedInsert mtimeLe x ys).getLast? := by
        cases hoi : List.orderedInsert mtimeLe x ys with
        | nil => exact absurd hoi hne
        | cons z zs => rw [List.getLast?_cons_cons]
      rw [hstep, ih (List.sorted_cons.mp hs).2]
      cases hys : ys.getLast? with
      | none =>
        rw [List.getLast?_eq_none_iff] at hys
        subst hys
        have : y.mtime < x.mtime := by
          unfold mtimeLe at hxy
          omega
        rw [show ([y] : List Archive).getLast? = some y from rfl]
        dsimp only
        rw [if_pos this]
      | some m =>
        have hyne : ys ≠ [] := by
          intro hnil
          rw [hnil] at hys
          simp at hys
        have : (y :: ys).getLast? = some m := by
          cases hc : ys with
          | nil => exact absurd hc hyne
          | cons z zs => rw [List.getLast?_cons_cons, ← hc, hys]
        rw [this]

theorem sortM_getLast?_cons (x : Archive) (xs : List Archive) :
    (sortM (x :: xs)).getLast?
      = some (match (sortM xs).getLast? with
          | none => x
          | some m => if m.mtime < x.mtime then x else m) := by
  rw [sortM, List.insertionSort]
  exact getLast?_orderedInsert_mtime x _ (List.sorted_insertionSort mtimeLe xs)

theorem sortM_getLast?_none {g : List Archive} :
    (sortM g).getLast? = none ↔ g = [] := by
  rw [List.getLast?_eq_none_iff]
  constructor
  · intro h
    have := List.perm_insertionSort mtimeLe g
    rw [sortM] at h
    rw [h] at this
    exact this.symm.eq_nil
  · intro h
    rw [h]
    rfl

theorem surv_mem {g : List Archive} {a : Archive}
    (h : (sortM g).getLast? = some a) : a ∈ g := by
  induction g generalizing a with
  | nil => simp [sortM, List.insertionSort] at h
  | cons x xs ih =>
    rw [sortM_getLast?_cons] at h
    cases hs : (sortM xs).getLast? with
    | none =>
      rw [hs] at h
      dsimp only at h
      exact (Option.some.inj h) ▸ List.mem_cons_self _ _
    | some m =>
      rw [hs] at h
      dsimp only at h
      by_cases hlt : m.mtime < x.mtime
      · rw [if_pos hlt] at h
        exact (Option.some.inj h) ▸ List.mem_cons_self _ _
      · rw [if_neg hlt] at h
        exact (Option.some.inj h) ▸ List.mem_cons_of_mem _ (ih hs)

theorem surv_max {g : List Archive} {a : Archive}
    (h : (sortM g).getLast? = some a) : ∀ b ∈ g, b.mtime ≤ a.mtime := by
  induction g generalizing a with
  | nil => simp [sortM, List.insertionSort] at h
  | cons x xs ih =>
    rw [sortM_getLast?_cons] at h
    cases hs : (sortM xs).getLast? with
    | none =>
      rw [hs] at h
      dsimp only at h
      have hxs : xs = [] := sortM_getLast?_none.mp hs
      subst hxs
      intro b hb
      rcases List.mem_cons.mp hb with rfl | hb
      · rw [← Option.some.inj h]
      · cases hb
    | some m =>
      rw [hs] at h
      dsimp only at h
      have hm := ih hs
      by_cases hlt : m.mtime < x.mtime
      · rw [if_pos hlt] at h
        rw [← Option.some.inj h]
        intro b hb
        rcases List.mem_cons.mp hb with rfl | hb
        · exact le_refl _
        · exact le_of_lt (lt_of_le_of_lt (hm b hb) hlt)
      · rw [if_neg hlt] at h
        rw [← Option.some.inj h]
        intro b hb
        rcases List.mem_cons.mp hb with rfl | hb
        · omega
        · exact hm b hb

theorem surv_tie {g : List Archive} {a : Archive}
    (hp : g.Pairwise pathLt)
    (h : (sortM g).getLast? = some a) :
    ∀ b ∈ g, b ≠ a → b.mtime < a.mtime ∨ pathLt b a := by
  induction g generalizing a with
  | nil => simp [sortM, List.insertionSort] at h
  | cons x xs ih =>
    rw [List.pairwise_cons] at hp
    rw [sortM_getLast?_cons] at h
    cases hs : (sortM xs).getLast? with
    | none =>
      rw [hs] at h
      dsimp only at h
      have hxs : xs = [] := sortM_getLast?_none.mp hs
      subst hxs
      intro b hb hba
      rcases List.mem_cons.mp hb with rfl | hb
      · exact absurd (Option.some.inj h) hba
      · cases hb
    | some m =>
      rw [hs] at h
      dsimp only at h
      by_cases hlt : m.mtime < x.mtime
      · rw [if_pos hlt] at h
        rw [← Option.some.inj h]
        intro b hb hba
        rcases List.mem_cons.mp hb with rfl | hb
        · exact absurd rfl hba
        · exact Or.inl (lt_of_le_of_lt (surv_max hs b hb) hlt)
      · rw [if_neg hlt] at h
        rw [← Option.some.inj h]
        intro b hb hba
        rcases List.mem_cons.mp hb with rfl | hb
        · rcases Nat.lt_or_ge b.mtime m.mtime with hx | hx
          · exact Or.inl hx
          · exact Or.inr (hp.1 m (surv_mem hs))
        · exact ih hp.2 hs b hb hba

/-! ### Group-level pruning lemmas -/

theorem filter_swap {α : Type} (l : List α) (p q : α → Bool) :
    (l.filter p).filter q = (l.filter q).filter p := by
  rw [List.filter_filter, List.filter_filter]
  exact List.filter_congr (fun a _ => Bool.and_comm _ _)

theorem string_eq_of_data_eq {s t : String} (h : s.data = t.data) : s = t := by
  calc s = String.mk s.data := rfl
    _ = String.mk t.data := by rw [h]
    _ = t := rfl

theorem pairwise_pathLt_of_sorted_nodup {l : List Archive}
    (hs : l.Sorted pathLe) (hnd : (l.map pathKey).Nodup) : l.Pairwise pathLt := by
  induction l with
  | nil => exact List.Pairwise.nil
  | cons x xs ih =>
    rw [List.sorted_cons] at hs
    rw [List.map_cons, List.nodup_cons] at hnd
    refine List.Pairwise.cons ?_ (ih hs.2 hnd.2)
    intro b hb
    rcases hs.1 b hb with hlt | heq
    · exact hlt
    · exfalso
      apply hnd.1
      rw [string_eq_of_data_eq heq]
      exact List.mem_map.mpr ⟨b, hb, rfl⟩

theorem filter_eq_singleton_of_nodup {l : List Archive} {a : Archive}
    (hnd : l.Nodup) (ha : a ∈ l) :
    l.filter (fun x => decide (x = a)) = [a] := by
  induction l with
  | nil => cases ha
  | cons x xs ih =>
    rw [List.filter_cons]
    rcases List.mem_cons.mp ha with hax | ha2
    · rw [if_pos (by simp [hax.symm])]
      have hnotin : x ∉ xs := (List.nodup_cons.mp hnd).1
      have hfe : xs.filter (fun y => decide (y = a)) = [] := by
        rw [List.filter_eq_nil_iff]
        intro y hy
        simp only [decide_eq_true_eq]
        intro hyx
        exact hnotin ((hyx.trans hax) ▸ hy)
      rw [hfe, hax]
    · have hx : ¬ (x = a) := fun h => (List.nodup_cons.mp hnd).1 (h ▸ ha2)
      rw [if_neg (by simpa)]
      exact ih (List.nodup_cons.mp hnd).2 ha2

theorem sortP_sorted (pool : List Archive) : (sortP pool).Sorted pathLe :=
  List.sorted_insertionSort pathLe pool

theorem sortP_nodup_keys {pool : List Archive} (hnd : (pool.map pathKey).Nodup) :
    ((sortP pool).map pathKey).Nodup :=
  ((List.perm_insertionSort pathLe pool).map pathKey).nodup_iff.mpr hnd

theorem dirSurvivors_eq (pool : List Archive) (d : List String) :
    dirSurvivors pool d
      = (dirGroup pool d).filter (fun a => keepArchive (sortP pool) a) := by
  unfold dirSurvivors pruneAll dirGroup
  exact filter_swap _ _ _

theorem keepArchive_mem_group {pool : List Archive} {d : List String} {x : Archive}
    (hx : x ∈ dirGroup pool d) :
    keepArchive (sortP pool) x
      = (decide ((dirGroup pool d).length ≤ 1)
        || decide ((sortM (dirGroup pool d)).getLast? = some x)) := by
  have hdx : dirOf x = d := of_decide_eq_true (List.mem_filter.mp hx).2
  have hgx : groupIn (sortP pool) x = dirGroup pool d := by
    unfold groupIn dirGroup
    rw [hdx]
  have hkeep : keepArchive (sortP pool) x
      = (decide ((groupIn (sortP pool) x).length ≤ 1)
        || decide ((sortM (groupIn (sortP pool) x)).getLast? = some x)) := rfl
  rw [hkeep, hgx]

theorem group_prune_singleton {pool : List Archive} {d : List String}
    (hnd : (pool.map pathKey).Nodup) (hlen : 1 < (dirGroup pool d).length) :
    ∃ a, (sortM (dirGroup pool d)).getLast? = some a
      ∧ (dirGroup pool d).filter (fun x => keepArchive (sortP pool) x) = [a] := by
  have hndS : ((sortP pool).map pathKey).Nodup := sortP_nodup_keys hnd
  have hgnd : (dirGroup pool d).Nodup :=
    List.Nodup.filter _ (List.Nodup.of_map pathKey hndS)
  have hne : dirGroup pool d ≠ [] := by
    intro h
    rw [h] at hlen
    simp at hlen
  obtain ⟨a, ha⟩ : ∃ a, (sortM (dirGroup pool d)).getLast? = some a := by
    cases hg : (sortM (dirGroup pool d)).getLast? with
    | none => exact absurd (sortM_getLast?_none.mp hg) hne
    | some a => exact ⟨a, rfl⟩
  refine ⟨a, ha, ?_⟩
  have hfe : (dirGroup pool d).filter (fun x => keepArchive (sortP pool) x)
      = (dirGroup pool d).filter (fun x => decide (x = a)) := by
    apply List.filter_congr
    intro x hx
    rw [keepArchive_mem_group hx]
    have h1 : decide ((dirGroup pool d).length ≤ 1) = false := by
      rw [decide_eq_false_iff_not]
      omega
    rw [h1, Bool.false_or, ha]
    by_cases hxa : x = a
    · subst hxa
      simp
    · have hne2 : ¬ (some a = some x) := fun hc => hxa (Option.some.inj hc).symm
      simp [hxa, hne2]
  rw [hfe]
  exact filter_eq_singleton_of_nodup hgnd (surv_mem ha)

/-- C6: in every package folder holding more than one archive, pruning keeps
exactly one archive — one of maximal modification time, and when mtimes tie,
the one with the lexicographically last path (equivalently filename, the
folder being fixed); folders with at most one archive are untouched. -/
theorem c6_old_version_pruning (pool : List Archive) (d : List String)
    (hnd : (pool.map pathKey).Nodup) :
    (1 < (dirGroup pool d).length →
      ∃ a, dirSurvivors pool d = [a]
        ∧ a ∈ dirGroup pool d
        ∧ (∀ b ∈ dirGroup pool d, b.mtime ≤ a.mtime)
        ∧ (∀ b ∈ dirGroup pool d, b ≠ a →
            b.mtime < a.mtime ∨ (b.mtime = a.mtime ∧ pathLt b a)))
    ∧ ((dirGroup pool d).length ≤ 1 → dirSurvivors pool d = dirGroup pool d) := by
  have hndS : ((sortP pool).map pathKey).Nodup := sortP_nodup_keys hnd
  have hpairs : (sortP pool).Pairwise pathLt :=
    pairwise_pathLt_of_sorted_nodup (sortP_sorted pool) hndS
  have hgp : (dirGroup pool d).Pairwise pathLt :=
    List.Pairwise.sublist (List.filter_sublist _) hpairs
  have hgnd : (dirGroup pool d).Nodup :=
    List.Nodup.filter _ (List.Nodup.of_map pathKey hndS)
  constructor
  · intro hlen
    have hne : dirGroup pool d ≠ [] := by
      intro h
      rw [h] at hlen
      simp at hlen
    obtain ⟨a, ha⟩ : ∃ a, (sortM (dirGroup pool d)).getLast? = some a := by
      cases hg : (sortM (dirGroup pool d)).getLast? with
      | none => exact absurd (sortM_getLast?_none.mp hg) hne
      | some a => exact ⟨a, rfl⟩
    refine ⟨a, ?_, surv_mem ha, surv_max ha, ?_⟩
    · rw [dirSurvivors_eq]
      obtain ⟨a2, ha2, hfil⟩ := group_prune_singleton hnd hlen
      rw [ha] at ha2
      rw [← Option.some.inj ha2] at hfil
      exact hfil
    · intro b hb hba
      rcases surv_tie hgp ha b hb hba with h | h
      · exact Or.inl h
      · have hle := surv_max ha b hb
        rcases Nat.lt_or_ge b.mtime a.mtime with h2 | h2
        · exact Or.inl h2
        · exact Or.inr ⟨by omega, h⟩
  · intro hlen
    rw [dirSurvivors_eq]
    apply List.filter_eq_self.mpr
    intro x hx
    rw [keepArchive_mem_group hx, decide_eq_true hlen, Bool.true_or]

/-! ### Idempotence and determinism of the build -/

theorem lexLtB_irrefl : ∀ as : List Char, lexLtB as as = false := by
  intro as
  induction as with
  | nil => rfl
  | cons a as ih => simp [lexLtB, ih]

theorem pathLt_asymm {a b : Archive} (h1 : pathLt a b) (h2 : pathLt b a) : False := by
  have h3 := @IsTrans.trans _ (lexKeyLt (fun a => (pathKey a).data)) _ a b a h1 h2
  rw [lexKeyLt, lexLtB_irrefl] at h3
  exact Bool.false_eq_true.mp h3

theorem sortP_perm_eq {pool pool' : List Archive} (hperm : List.Perm pool' pool)
    (hnd : (pool.map pathKey).Nodup) : sortP pool' = sortP pool := by
  have hnd' : (pool'.map pathKey).Nodup := ((hperm.map pathKey).nodup_iff).mpr hnd
  have h1 : (sortP pool').Pairwise pathLt :=
    pairwise_pathLt_of_sorted_nodup (sortP_sorted pool') (sortP_nodup_keys hnd')
  have h2 : (sortP pool).Pairwise pathLt :=
    pairwise_pathLt_of_sorted_nodup (sortP_sorted pool) (sortP_nodup_keys hnd)
  have hp : List.Perm (sortP pool') (sortP pool) :=
    (List.perm_insertionSort pathLe pool').trans
      (hperm.trans (List.perm_insertionSort pathLe pool).symm)
  haveI : IsAntisymm Archive pathLt := ⟨fun a b hab hba => (pathLt_asymm hab hba).elim⟩
  exact List.eq_of_perm_of_sorted hp h1 h2

theorem pruneAll_perm_eq {pool pool' : List Archive} (hperm : List.Perm pool' pool)
    (hnd : (pool.map pathKey).Nodup) : pruneAll pool' = pruneAll pool := by
  unfold pruneAll
  rw [sortP_perm_eq hperm hnd]

theorem pruneAll_idem (pool : List Archive) (hnd : (pool.map pathKey).Nodup) :
    pruneAll (pruneAll pool) = pruneAll pool := by
  have ht_sorted : (pruneAll pool).Sorted pathLe :=
    List.Pairwise.sublist (List.filter_sublist _) (sortP_sorted pool)
  have hsortT : sortP (pruneAll pool) = pruneAll pool :=
    List.Sorted.insertionSort_eq ht_sorted
  show (sortP (pruneAll pool)).filter (fun a => keepArchive (sortP (pruneAll pool)) a)
    = pruneAll pool
  rw [hsortT]
  apply List.filter_eq_self.mpr
  intro x hx
  have hxs : x ∈ sortP pool := List.mem_of_mem_filter hx
  have hkx : keepArchive (sortP pool) x = true := (List.mem_filter.mp hx).2
  have hxg : x ∈ dirGroup pool (dirOf x) := List.mem_filter.mpr ⟨hxs, by simp⟩
  have hgt : groupIn (pruneAll pool) x
      = (dirGroup pool (dirOf x)).filter (fun a => keepArchive (sortP pool) a) := by
    unfold groupIn pruneAll dirGroup
    exact filter_swap _ _ _
  have hkt : keepArchive (pruneAll pool) x
      = (decide ((groupIn (pruneAll pool) x).length ≤ 1)
        || decide ((sortM (groupIn (pruneAll pool) x)).getLast? = some x)) := rfl
  by_cases hlen : (dirGroup pool (dirOf x)).length ≤ 1
  · have hfe : (dirGroup pool (dirOf x)).filter (fun a => keepArchive (sortP pool) a)
        = dirGroup pool (dirOf x) := by
      apply List.filter_eq_self.mpr
      intro y hy
      rw [keepArchive_mem_group hy, decide_eq_true hlen, Bool.true_or]
    rw [hkt, hgt, hfe, decide_eq_true hlen, Bool.true_or]
  · push_neg at hlen
    obtain ⟨a, ha, hfil⟩ := group_prune_singleton hnd hlen
    have hxmem : x ∈ (dirGroup pool (dirOf x)).filter
        (fun a => keepArchive (sortP pool) a) :=
      List.mem_filter.mpr ⟨hxg, hkx⟩
    rw [hfil] at hxmem
    rw [hkt, hgt, hfil]
    simp

/-- C1: the Packages index content is a deterministic function of the pool
contents (as a set of archives with their bytes-derived digests and stat
data), the release.json registry and the release-URL mapping. Running the
builder again on the pool the first run left behind (the pruned pool)
produces byte-identical Packages content, and the content does not depend on
the order the filesystem enumerates the pool in. No clock input appears
anywhere in the content; only the separate Release manifest carries a
timestamp. -/
theorem c1_index_determinism_idempotence (pool pool' : List Archive)
    (reg : List RelEntry) (urls : Record)
    (hnd : (pool.map pathKey).Nodup) :
    packagesContent (buildPackages (pruneAll pool) reg urls)
      = packagesContent (buildPackages pool reg urls)
    ∧ (List.Perm pool' pool →
        packagesContent (buildPackages pool' reg urls)
          = packagesContent (buildPackages pool reg urls)) := by
  have hc : ∀ q1 q2 : List Archive, pruneAll q1 = pruneAll q2 →
      packagesContent (buildPackages q1 reg urls)
        = packagesContent (buildPackages q2 reg urls) := by
    intro q1 q2 h
    unfold packagesContent
    rw [buildPackages_entries, buildPackages_entries, h]
  constructor
  · exact hc _ _ (pruneAll_idem pool hnd)
  · intro hperm
    exact hc _ _ (pruneAll_perm_eq hperm hnd)

/-- C1 (witness): idempotence and scan-order independence on a concrete
two-archive pool. -/
theorem c1_witness :
    (([w1a, w1b].map pathKey).Nodup ∧ List.Perm [w1b, w1a] [w1a, w1b])
    ∧ packagesContent (buildPackages (pruneAll [w1a, w1b]) [] [])
        = packagesContent (buildPackages [w1a, w1b] [] [])
    ∧ packagesContent (buildPackages [w1b, w1a] [] [])
        = packagesContent (buildPackages [w1a, w1b] [] []) :=
  ⟨⟨by decide, by decide⟩,
    (c1_index_determinism_idempotence [w1a, w1b] [w1b, w1a] [] [] (by decide)).1,
    (c1_index_determinism_idempotence [w1a, w1b] [w1b, w1a] [] [] (by decide)).2 (by decide)⟩

/-- C6 (witness): a package folder with three archives of distinct mtimes
keeps exactly the most recently modified one. -/
theorem c6_witness :
    ((w6Pool.map pathKey).Nodup ∧ 1 < (dirGroup w6Pool ["m", "micro"]).length)
    ∧ (∃ a, dirSurvivors w6Pool ["m", "micro"] = [a]
        ∧ a ∈ dirGroup w6Pool ["m", "micro"]
        ∧ (∀ b ∈ dirGroup w6Pool ["m", "micro"], b.mtime ≤ a.mtime)
        ∧ (∀ b ∈ dirGroup w6Pool ["m", "micro"], b ≠ a →
            b.mtime < a.mtime ∨ (b.mtime = a.mtime ∧ pathLt b a))) :=
  ⟨⟨by decide, by decide⟩,
    (c6_old_version_pruning w6Pool ["m", "micro"] (by decide)).1 (by decide)⟩

/-! ### Import idempotence machinery -/

theorem tgtPredB_iff (d : SrcDeb) (f : PoolFile) :
    tgtPredB d f = true ↔ fileKey f = fileKey (mkPoolFile d) := by
  simp [tgtPredB, fileKey, mkPoolFile, Prod.ext_iff, and_assoc]

theorem otherPredB_iff (d : SrcDeb) (f : PoolFile) :
    otherPredB d f = true
      ↔ (f.letter = srcLetter d ∧ f.pkg = srcPkgName d ∧ f.name ≠ d.name) := by
  simp [otherPredB, and_assoc]

theorem dirFiles_mem_iff {p : PoolState} {k : String × String} {f : PoolFile} :
    f ∈ dirFiles p k ↔ f ∈ p ∧ f.letter = k.1 ∧ f.pkg = k.2 := by
  simp [dirFiles, List.mem_filter, and_assoc]

theorem filter_eq_singleton_of_nodup_key {α β : Type} {l : List α} {a : α}
    (k : α → β) (hnd : (l.map k).Nodup) (ha : a ∈ l) (p : α → Bool)
    (hp : ∀ x ∈ l, p x = true ↔ k x = k a) :
    l.filter p = [a] := by
  induction l with
  | nil => cases ha
  | cons x xs ih =>
    rw [List.map_cons, List.nodup_cons] at hnd
    rw [List.filter_cons]
    rcases List.mem_cons.mp ha with hax | ha2
    · rw [if_pos ((hp x (List.mem_cons_self _ _)).mpr (by rw [hax]))]
      have hrest : xs.filter p = [] := by
        rw [List.filter_eq_nil_iff]
        intro y hy hpy
        have hky := (hp y (List.mem_cons_of_mem _ hy)).mp hpy
        apply hnd.1
        exact List.mem_map.mpr ⟨y, hy, by rw [hky, hax]⟩
      rw [hrest, hax]
    · have hpx : p x = false := by
        cases hc : p x
        · rfl
        · exfalso
          have hkx := (hp x (List.mem_cons_self _ _)).mp hc
          exact hnd.1 (hkx ▸ List.mem_map.mpr ⟨a, ha2, rfl⟩)
      rw [if_neg (by simp [hpx])]
      exact ih hnd.2 ha2 (fun y hy => hp y (List.mem_cons_of_mem _ hy))

theorem dirFiles_filter_notOther (p : PoolState) (d : SrcDeb) :
    dirFiles (p.filter (fun f => !(otherPredB d f))) (srcKey d)
      = p.filter (tgtPredB d) := by
  unfold dirFiles
  rw [List.filter_filter]
  apply List.filter_congr
  intro f _
  simp only [otherPredB, tgtPredB, srcKey, bne, Bool.not_not, Bool.not_and, Bool.not_or]
  generalize (f.letter == srcLetter d) = x
  generalize (f.pkg == srcPkgName d) = y
  generalize (f.name == d.name) = z
  cases x <;> cases y <;> cases z <;> rfl

theorem tgtPred_mkPoolFile (d : SrcDeb) : tgtPredB d (mkPoolFile d) = true := by
  simp [tgtPredB, mkPoolFile]

theorem poolFile_eq_of_key_size {f g : PoolFile}
    (hk : fileKey f = fileKey g) (hs : f.size = g.size) : f = g := by
  obtain ⟨fl, fp, fn, fs⟩ := f
  obtain ⟨gl, gp, gn, gs⟩ := g
  simp only [fileKey, Prod.ext_iff] at hk
  simp only at hs
  simp [hk.1, hk.2.1, hk.2.2, hs]

theorem dirFiles_append (l r : PoolState) (k : String × String) :
    dirFiles (l ++ r) k = dirFiles l k ++ dirFiles r k := by
  simp [dirFiles, List.filter_append]

theorem dirFiles_mk_self (d : SrcDeb) :
    dirFiles [mkPoolFile d] (srcKey d) = [mkPoolFile d] := by
  simp [dirFiles, mkPoolFile, srcKey]

theorem removeOld_keeps_target {p : PoolState} {d : SrcDeb} {f : PoolFile}
    (hf : f ∈ p) (hpred : tgtPredB d f = true) : f ∈ importRemoveOld p d := by
  apply List.mem_filter.mpr
  refine ⟨hf, ?_⟩
  have hkey := (tgtPredB_iff d f).mp hpred
  simp only [fileKey, mkPoolFile, Prod.ext_iff] at hkey
  simp [otherPredB, hkey.2.2]

theorem importStep_dir_self {p : PoolState} {d : SrcDeb} {p2 : PoolState} {dc dr ds : Nat}
    (hnd : (p.map fileKey).Nodup)
    (h : importStep p d = some (p2, dc, dr, ds)) :
    dirFiles p2 (srcKey d) = [mkPoolFile d] := by
  unfold importStep at h
  split at h
  · exact absurd h (by simp)
  · next hne =>
    cases hfind : (importRemoveOld p d).find? (tgtPredB d) with
    | some tgt =>
      rw [hfind] at h
      dsimp only at h
      have hpred := List.find?_some hfind
      have hmem : tgt ∈ p := List.mem_of_mem_filter (List.mem_of_find?_eq_some hfind)
      have hkey : fileKey tgt = fileKey (mkPoolFile d) := (tgtPredB_iff d tgt).mp hpred
      split at h
      · next hsz =>
        -- skip: p2 is the pool with old versions removed
        have htgt : tgt = mkPoolFile d := poolFile_eq_of_key_size hkey hsz
        have hp2 : p2 = importRemoveOld p d := ((Prod.mk.injEq _ _ _ _).mp (Option.some.inj h)).1.symm
        rw [hp2, importRemoveOld, dirFiles_filter_notOther]
        refine filter_eq_singleton_of_nodup_key fileKey hnd (htgt ▸ hmem) _ ?_
        intro x hx
        exact tgtPredB_iff d x
      · next hsz =>
        have hp2 : p2 = (importRemoveOld p d).filter (fun f => !(tgtPredB d f))
            ++ [mkPoolFile d] := ((Prod.mk.injEq _ _ _ _).mp (Option.some.inj h)).1.symm
        rw [hp2, dirFiles_append, dirFiles_mk_self]
        have hleft : dirFiles ((importRemoveOld p d).filter (fun f => !(tgtPredB d f)))
            (srcKey d) = [] := by
          have hsw : dirFiles ((importRemoveOld p d).filter (fun f => !(tgtPredB d f)))
              (srcKey d)
              = (dirFiles (importRemoveOld p d) (srcKey d)).filter
                  (fun f => !(tgtPredB d f)) := by
            unfold dirFiles
            exact filter_swap _ _ _
          rw [hsw, importRemoveOld, dirFiles_filter_notOther]
          rw [List.filter_eq_nil_iff]
          intro f hf
          have := (List.mem_filter.mp hf).2
          simp [this]
        rw [hleft, List.nil_append]
    | none =>
      rw [hfind] at h
      dsimp only at h
      have hp2 : p2 = importRemoveOld p d ++ [mkPoolFile d] :=
        ((Prod.mk.injEq _ _ _ _).mp (Option.some.inj h)).1.symm
      rw [hp2, dirFiles_append, dirFiles_mk_self, importRemoveOld, dirFiles_filter_notOther]
      have hempty : p.filter (tgtPredB d) = [] := by
        rw [List.filter_eq_nil_iff]
        intro f hf hpred
        have hmem1 : f ∈ importRemoveOld p d := removeOld_keeps_target hf hpred
        exact (List.find?_eq_none.mp hfind f hmem1) hpred
      rw [hempty, List.nil_append]

theorem importStep_nodup {p : PoolState} {d : SrcDeb} {p2 : PoolState} {dc dr ds : Nat}
    (hnd : (p.map fileKey).Nodup)
    (h : importStep p d = some (p2, dc, dr, ds)) :
    (p2.map fileKey).Nodup := by
  have hsub1 : List.Sublist ((importRemoveOld p d).map fileKey) (p.map fileKey) :=
    (List.filter_sublist p).map fileKey
  unfold importStep at h
  split at h
  · exact absurd h (by simp)
  · next hne =>
    cases hfind : (importRemoveOld p d).find? (tgtPredB d) with
    | some tgt =>
      rw [hfind] at h
      dsimp only at h
      split at h
      · next hsz =>
        have hp2 : p2 = importRemoveOld p d := ((Prod.mk.injEq _ _ _ _).mp (Option.some.inj h)).1.symm
        rw [hp2]
        exact hsub1.nodup hnd
      · next hsz =>
        have hp2 : p2 = (importRemoveOld p d).filter (fun f => !(tgtPredB d f))
            ++ [mkPoolFile d] := ((Prod.mk.injEq _ _ _ _).mp (Option.some.inj h)).1.symm
        rw [hp2, List.map_append, List.nodup_append]
        refine ⟨(((List.filter_sublist _).map fileKey).trans hsub1).nodup hnd, by simp, ?_⟩
        intro k hk hk2
        simp only [List.map_cons, List.map_nil, List.mem_cons, List.not_mem_nil,
          or_false] at hk2
        rcases List.mem_map.mp hk with ⟨f, hf, hfk⟩
        have hnp := (List.mem_filter.mp hf).2
        rw [Bool.not_eq_true'] at hnp
        have hcontra : tgtPredB d f = true := (tgtPredB_iff d f).mpr (by rw [hfk, hk2])
        rw [hnp] at hcontra
        exact Bool.false_eq_true.mp hcontra
    | none =>
      rw [hfind] at h
      dsimp only at h
      have hp2 : p2 = importRemoveOld p d ++ [mkPoolFile d] :=
        ((Prod.mk.injEq _ _ _ _).mp (Option.some.inj h)).1.symm
      rw [hp2, List.map_append, List.nodup_append]
      refine ⟨hsub1.nodup hnd, by simp, ?_⟩
      intro k hk hk2
      simp only [List.map_cons, List.map_nil, List.mem_cons, List.not_mem_nil,
        or_false] at hk2
      rcases List.mem_map.mp hk with ⟨f, hf, hfk⟩
      have hpred : tgtPredB d f = true := by
        rw [tgtPredB_iff, hfk, hk2]
      exact (List.find?_eq_none.mp hfind f hf) hpred

theorem dirFiles_filter_of_key_ne {l : PoolState} {d : SrcDeb} {k : String × String}
    (hk : srcKey d ≠ k) (q : PoolFile → Bool)
    (hq : ∀ f, q f = false → f.letter = srcLetter d ∧ f.pkg = srcPkgName d) :
    dirFiles (l.filter q) k = dirFiles l k := by
  have hsw : dirFiles (l.filter q) k = (dirFiles l k).filter q := by
    unfold dirFiles
    exact filter_swap _ _ _
  rw [hsw]
  apply List.filter_eq_self.mpr
  intro f hf
  obtain ⟨_, h1, h2⟩ := dirFiles_mem_iff.mp hf
  cases hc : q f
  · exfalso
    obtain ⟨h3, h4⟩ := hq f hc
    exact hk (by rw [srcKey, ← h3, ← h4, h1, h2])
  · rfl

theorem dirFiles_mk_of_key_ne {d : SrcDeb} {k : String × String} (hk : srcKey d ≠ k) :
    dirFiles [mkPoolFile d] k = [] := by
  unfold dirFiles
  rw [List.filter_eq_nil_iff]
  intro f hf
  have hfd : f = mkPoolFile d := by simpa using hf
  subst hfd
  intro hc
  rw [Bool.and_eq_true, beq_iff_eq, beq_iff_eq] at hc
  obtain ⟨k1, k2⟩ := k
  have h1 : srcLetter d = k1 := hc.1
  have h2 : srcPkgName d = k2 := hc.2
  exact hk (by rw [srcKey, h1, h2])

theorem importStep_dir_other {p : PoolState} {d : SrcDeb} {p2 : PoolState}
    {dc dr ds : Nat} {k : String × String}
    (hk : srcKey d ≠ k)
    (h : importStep p d = some (p2, dc, dr, ds)) :
    dirFiles p2 k = dirFiles p k := by
  have hrm : dirFiles (importRemoveOld p d) k = dirFiles p k := by
    apply dirFiles_filter_of_key_ne hk
    intro f hf
    rw [Bool.not_eq_false'] at hf
    obtain ⟨h1, h2, _⟩ := (otherPredB_iff d f).mp hf
    exact ⟨h1, h2⟩
  unfold importStep at h
  split at h
  · exact absurd h (by simp)
  · next hne =>
    cases hfind : (importRemoveOld p d).find? (tgtPredB d) with
    | some tgt =>
      rw [hfind] at h
      dsimp only at h
      split at h
      · next hsz =>
        have hp2 : p2 = importRemoveOld p d :=
          ((Prod.mk.injEq _ _ _ _).mp (Option.some.inj h)).1.symm
        rw [hp2, hrm]
      · next hsz =>
        have hp2 : p2 = (importRemoveOld p d).filter (fun f => !(tgtPredB d f))
            ++ [mkPoolFile d] := ((Prod.mk.injEq _ _ _ _).mp (Option.some.inj h)).1.symm
        rw [hp2, dirFiles_append, dirFiles_mk_of_key_ne hk, List.append_nil]
        rw [dirFiles_filter_of_key_ne hk, hrm]
        intro f hf
        rw [Bool.not_eq_false'] at hf
        have hkey := (tgtPredB_iff d f).mp hf
        simp only [fileKey, mkPoolFile, Prod.ext_iff] at hkey
        exact ⟨hkey.1, hkey.2.1⟩
    | none =>
      rw [hfind] at h
      dsimp only at h
      have hp2 : p2 = importRemoveOld p d ++ [mkPoolFile d] :=
        ((Prod.mk.injEq _ _ _ _).mp (Option.some.inj h)).1.symm
      rw [hp2, dirFiles_append, dirFiles_mk_of_key_ne hk, List.append_nil, hrm]

theorem importStep_skip {p : PoolState} {d : SrcDeb}
    (hne : srcPkgName d ≠ "")
    (hdir : dirFiles p (srcKey d) = [mkPoolFile d]) :
    importStep p d = some (p, 0, 0, 1) := by
  have hothers : ∀ f ∈ p, otherPredB d f = false := by
    intro f hf
    cases hc : otherPredB d f
    · rfl
    · exfalso
      obtain ⟨h1, h2, h3⟩ := (otherPredB_iff d f).mp hc
      have hfm : f ∈ dirFiles p (srcKey d) := dirFiles_mem_iff.mpr ⟨hf, h1, h2⟩
      rw [hdir] at hfm
      have hfd : f = mkPoolFile d := by simpa using hfm
      exact h3 (by rw [hfd]; rfl)
  have hp1 : importRemoveOld p d = p := by
    apply List.filter_eq_self.mpr
    intro f hf
    rw [hothers f hf]
    rfl
  have hrep : importReplaced p d = 0 := by
    unfold importReplaced
    have hnil : p.filter (otherPredB d) = [] := by
      rw [List.filter_eq_nil_iff]
      intro f hf
      rw [hothers f hf]
      simp
    rw [hnil]
    rfl
  have hmk_mem : mkPoolFile d ∈ p := by
    have hin : mkPoolFile d ∈ dirFiles p (srcKey d) := by
      rw [hdir]
      exact List.mem_cons_self _ _
    exact (dirFiles_mem_iff.mp hin).1
  unfold importStep
  rw [if_neg hne, hp1]
  cases hfind : p.find? (tgtPredB d) with
  | none =>
    exact absurd (tgtPred_mkPoolFile d) (List.find?_eq_none.mp hfind (mkPoolFile d) hmk_mem)
  | some tgt =>
    dsimp only
    have hpred := List.find?_some hfind
    have hmem := List.mem_of_find?_eq_some hfind
    have hkey := (tgtPredB_iff d tgt).mp hpred
    have htm : tgt ∈ dirFiles p (srcKey d) := by
      simp only [fileKey, mkPoolFile, Prod.ext_iff] at hkey
      exact dirFiles_mem_iff.mpr ⟨hmem, hkey.1, hkey.2.1⟩
    rw [hdir] at htm
    have htgt : tgt = mkPoolFile d := by simpa using htm
    rw [if_pos (by rw [htgt]; rfl), hrep]

theorem importStep_some_ne {p : PoolState} {d : SrcDeb} {z : PoolState × Nat × Nat × Nat}
    (h : importStep p d = some z) : srcPkgName d ≠ "" := by
  unfold importStep at h
  split at h
  · exact absurd h (by simp)
  · next hne => exact hne

theorem importGo_some_nonempty {debs : List SrcDeb} {p : PoolState} {c r s : Nat}
    {out : PoolState × Nat × Nat × Nat}
    (h : importGo debs p c r s = .ok out) : ∀ d ∈ debs, srcPkgName d ≠ "" := by
  induction debs generalizing p c r s with
  | nil => intro d hd; cases hd
  | cons d ds ih =>
    unfold importGo at h
    cases hstep : importStep p d with
    | none =>
      rw [hstep] at h
      exact absurd h (by simp)
    | some z =>
      obtain ⟨p2, dc, dr, dsk⟩ := z
      rw [hstep] at h
      dsimp only at h
      intro e he
      rcases List.mem_cons.mp he with rfl | he2
      · exact importStep_some_ne hstep
      · exact ih h e he2

theorem importGo_preserve {debs : List SrcDeb} {p : PoolState} {c r s : Nat}
    {p1 : PoolState} {c1 r1 s1 : Nat} {k : String × String}
    (hk : ∀ e ∈ debs, srcKey e ≠ k)
    (h : importGo debs p c r s = .ok (p1, c1, r1, s1)) :
    dirFiles p1 k = dirFiles p k := by
  induction debs generalizing p c r s with
  | nil =>
    unfold importGo at h
    have hp : p = p1 := congrArg Prod.fst (Except.ok.inj h)
    rw [← hp]
  | cons d ds ih =>
    unfold importGo at h
    cases hstep : importStep p d with
    | none =>
      rw [hstep] at h
      exact absurd h (by simp)
    | some z =>
      obtain ⟨p2, dc, dr, dsk⟩ := z
      rw [hstep] at h
      dsimp only at h
      rw [ih (fun e he => hk e (List.mem_cons_of_mem _ he)) h]
      exact importStep_dir_other (hk d (List.mem_cons_self _ _)) hstep

theorem importGo_post {debs : List SrcDeb} {p : PoolState} {c r s : Nat}
    {p1 : PoolState} {c1 r1 s1 : Nat}
    (hnd : (p.map fileKey).Nodup)
    (hkeys : (debs.map srcKey).Nodup)
    (h : importGo debs p c r s = .ok (p1, c1, r1, s1)) :
    ∀ d ∈ debs, dirFiles p1 (srcKey d) = [mkPoolFile d] := by
  induction debs generalizing p c r s with
  | nil => intro d hd; cases hd
  | cons d ds ih =>
    rw [List.map_cons, List.nodup_cons] at hkeys
    unfold importGo at h
    cases hstep : importStep p d with
    | none =>
      rw [hstep] at h
      exact absurd h (by simp)
    | some z =>
      obtain ⟨p2, dc, dr, dsk⟩ := z
      rw [hstep] at h
      dsimp only at h
      intro e he
      rcases List.mem_cons.mp he with rfl | he2
      · have hk2 : ∀ x ∈ ds, srcKey x ≠ srcKey e := by
          intro x hx hcontra
          exact hkeys.1 (hcontra ▸ List.mem_map.mpr ⟨x, hx, rfl⟩)
        rw [importGo_preserve hk2 h]
        exact importStep_dir_self hnd hstep
      · exact ih (importStep_nodup hnd hstep) hkeys.2 h e he2

theorem importGo_all_skip {debs : List SrcDeb} {p : PoolState} (c r s : Nat)
    (hd : ∀ d ∈ debs, dirFiles p (srcKey d) = [mkPoolFile d] ∧ srcPkgName d ≠ "") :
    importGo debs p c r s = .ok (p, c, r, s + debs.length) := by
  induction debs generalizing c r s with
  | nil => rfl
  | cons d ds ih =>
    have hmemd := hd d (List.mem_cons_self _ _)
    unfold importGo
    rw [importStep_skip hmemd.2 hmemd.1]
    dsimp only
    rw [ih (c + 0) (r + 0) (s + 1) (fun e he => hd e (List.mem_cons_of_mem _ he))]
    have h3 : s + 1 + ds.length = s + (d :: ds).length := by
      simp only [List.length_cons]
      omega
    rw [h3]
    rfl

/-- C7: import idempotence. After a successful import of a source folder
(pairwise-distinct target package folders, a pool with unique file paths),
importing the same source again performs zero copy operations and zero
removals, skips every archive, and leaves the pool byte-identical; moreover
the skip guard fires whenever a same-named, same-size archive already sits
at the target path, performing no copy. -/
theorem c7_import_idempotence (src : List SrcDeb) (pool p1 : PoolState) (c r s : Nat)
    (hnd : (pool.map fileKey).Nodup)
    (hkeys : (src.map srcKey).Nodup)
    (h1 : importDebs src pool = .ok (p1, c, r, s)) :
    importDebs src p1 = .ok (p1, 0, 0, src.length)
    ∧ ∀ (p : PoolState) (d : SrcDeb), srcPkgName d ≠ "" →
        dirFiles p (srcKey d) = [mkPoolFile d] →
        importStep p d = some (p, 0, 0, 1) := by
  have hdef : ∀ q : PoolState, importDebs src q =
      if (sortN src).isEmpty then Except.error ImportErr.noDebs
      else importGo (sortN src) q 0 0 0 := fun q => rfl
  rw [hdef pool] at h1
  rw [hdef p1]
  cases hse : (sortN src).isEmpty with
  | true =>
    rw [hse, if_pos rfl] at h1
    exact absurd h1 (by simp)
  | false =>
    rw [hse] at h1
    simp only [Bool.false_eq_true, if_false] at h1 ⊢
    have hkeys2 : ((sortN src).map srcKey).Nodup :=
      (((List.perm_insertionSort nameLe src).map srcKey).nodup_iff).mpr hkeys
    have hpost := importGo_post hnd hkeys2 h1
    have hne := importGo_some_nonempty h1
    constructor
    · have hall : ∀ d ∈ sortN src,
          dirFiles p1 (srcKey d) = [mkPoolFile d] ∧ srcPkgName d ≠ "" :=
        fun d hd => ⟨hpost d hd, hne d hd⟩
      rw [importGo_all_skip 0 0 0 hall]
      have hlen : (sortN src).length = src.length :=
        (List.perm_insertionSort nameLe src).length_eq
      rw [Nat.zero_add, hlen]
    · intro p d hone hdir
      exact importStep_skip hone hdir

/-- C7 (witness): importing a one-archive source folder into an empty pool,
then importing it again: the second run copies nothing, removes nothing,
skips the archive and leaves the pool unchanged. -/
theorem c7_witness :
    ((([] : PoolState).map fileKey).Nodup
      ∧ (w7Src.map srcKey).Nodup
      ∧ importDebs w7Src [] = Except.ok (w7Pool1, 1, 0, 0))
    ∧ (importDebs w7Src w7Pool1 = Except.ok (w7Pool1, 0, 0, w7Src.length)
      ∧ ∀ (p : PoolState) (d : SrcDeb), srcPkgName d ≠ "" →
          dirFiles p (srcKey d) = [mkPoolFile d] →
          importStep p d = some (p, 0, 0, 1)) :=
  ⟨⟨by decide, by decide, by decide⟩,
    c7_import_idempotence w7Src [] w7Pool1 1 0 0 (by decide) (by decide) (by decide)⟩

/-- C10: on an empty pool with no registered remote entries the build still
completes, writing a zero-byte Packages file with no trailing newline, a
Packages.gz that decompresses to zero bytes, and an empty packages.json
mapping, after recording the empty-pool warning diagnostic. -/
theorem c10_empty_pool :
    buildPackages [] [] []
      = { entries := [], folderMap := [], arches := [], warnEmpty := true }
    ∧ packagesContent (buildPackages [] [] []) = ""
    ∧ packagesGzDecompressed (buildPackages [] [] []) = "" := by
  refine ⟨by decide, by decide, by decide⟩

end PkgRepo
